import Mathlib

/-!
Shallow embedding of the `uri_parser` crate (src/uri.rs, src/authority.rs,
src/coder.rs, src/ip.rs, src/statics.rs, src/err.rs).

Strings are modelled as `List Char`; the Rust code walks `VecDeque<char>`
buffers character by character, and its slice positions (`find`, `split_at`,
`[a..b]`) are translated to character positions.  For all-ASCII input (the
only input on which every positive claim below is exercised, since every
character class of the crate is a set of ASCII characters) character
positions and Rust's byte positions coincide, so the embedding is exact
there; on non-ASCII input the Rust slicing can panic mid-code-point, which
has no `Result` value to model.

Each definition keeps the name and the control flow of the Rust item it
embeds; deviations of the source from the spec (e.g. the `{:2X}`
space-padded formatting in `Encoder::encode`, the `host[1..len-2]` slice in
`Authority::parse_host`, the double `starts_with('[')` test) are translated
as they stand in the source, not as the spec describes them.
-/

deriving instance DecidableEq for Except

namespace UriParser

/-- Error enum from src/err.rs (the `IllegaHostDefinition` spelling is the
source's own). -/
inductive Error where
  | EmptyScheme
  | EmptyAuthority
  | ParsePortError
  | SchemeIllegalFirstCharacter
  | SchemeIllegalCharacter
  | UserinfoIllegalCharacter
  | IllegaHostDefinition
  | IllegalIPvFuture
  | IllegalIPv6
  | HostIllegalCharacter
  | PathIllegalStart
  | PathIllegalCharacter
  | QueryIllegalCharacter
  | FragmentIllegalCharacter
  | IllegalCharacter
  | IllegalPercentEncoding
deriving DecidableEq

/-! ## Character classes (src/statics.rs)

The crate stores each class as a `HashSet<char>` built from explicit
ranges/lists; membership is embedded as a boolean predicate over `Char`. -/

/-- ALPHA: `'a'..='z'` chained with `'A'..='Z'`. -/
def inALPHA (c : Char) : Bool :=
  ('a' ≤ c && c ≤ 'z') || ('A' ≤ c && c ≤ 'Z')

/-- DIGIT: `'0'..='9'`. -/
def inDIGIT (c : Char) : Bool :=
  '0' ≤ c && c ≤ '9'

/-- HEXDIG: `'0'..='9'`, `'a'..='f'`, `'A'..='F'`. -/
def inHEXDIG (c : Char) : Bool :=
  inDIGIT c || ('a' ≤ c && c ≤ 'f') || ('A' ≤ c && c ≤ 'F')

/-- GEN_DELIMS. -/
def inGEN_DELIMS (c : Char) : Bool :=
  c = ':' || c = '/' || c = '?' || c = '#' || c = '[' || c = ']' || c = '@'

/-- SUB_DELIMS. -/
def inSUB_DELIMS (c : Char) : Bool :=
  c = '!' || c = '$' || c = '&' || c = '\'' || c = '(' || c = ')' ||
  c = '*' || c = '+' || c = ',' || c = ';' || c = '='

/-- UNRESERVED: ALPHA ∪ DIGIT ∪ {-, ., _, ~}. -/
def inUNRESERVED (c : Char) : Bool :=
  inALPHA c || inDIGIT c || c = '-' || c = '.' || c = '_' || c = '~'

/-- SCHEME: ALPHA ∪ DIGIT ∪ {+, -, .}. -/
def inSCHEME (c : Char) : Bool :=
  inALPHA c || inDIGIT c || c = '+' || c = '-' || c = '.'

/-- USER_INFO: UNRESERVED ∪ SUB_DELIMS. -/
def inUSER_INFO (c : Char) : Bool :=
  inUNRESERVED c || inSUB_DELIMS c

/-- STRIPPED_IP_FUTURE: UNRESERVED ∪ SUB_DELIMS ∪ {:}. -/
def inSTRIPPED_IP_FUTURE (c : Char) : Bool :=
  inUNRESERVED c || inSUB_DELIMS c || c = ':'

/-- REG_NAME: UNRESERVED ∪ SUB_DELIMS ∪ {.}. -/
def inREG_NAME (c : Char) : Bool :=
  inUNRESERVED c || inSUB_DELIMS c || c = '.'

/-- PATH: UNRESERVED ∪ SUB_DELIMS ∪ {:, @, /}. -/
def inPATH (c : Char) : Bool :=
  inUNRESERVED c || inSUB_DELIMS c || c = ':' || c = '@' || c = '/'

/-- QUERY: UNRESERVED ∪ SUB_DELIMS ∪ {:, @, /, ?}. -/
def inQUERY (c : Char) : Bool :=
  inUNRESERVED c || inSUB_DELIMS c || c = ':' || c = '@' || c = '/' || c = '?'

/-- FRAGMENT: UNRESERVED ∪ SUB_DELIMS ∪ {:, @, /, ?}. -/
def inFRAGMENT (c : Char) : Bool :=
  inUNRESERVED c || inSUB_DELIMS c || c = ':' || c = '@' || c = '/' || c = '?'

/-! ## Percent codec (src/coder.rs) -/

/-- Rust `char::to_digit(16)`: the numeric value of a hex digit.  The
three ranges are disjoint, so testing the uppercase letters before the
lowercase ones gives the same function. -/
def hexVal? (c : Char) : Option Nat :=
  if '0' ≤ c && c ≤ '9' then some (c.toNat - '0'.toNat)
  else if 'A' ≤ c && c ≤ 'F' then some (c.toNat - 'A'.toNat + 10)
  else if 'a' ≤ c && c ≤ 'f' then some (c.toNat - 'a'.toNat + 10)
  else none

/-- The loop of `Decoder::decode`.  `out` is the output buffer; the source
pops the front of the input queue and pushes decoded characters to the back
of the output.  Note the source's hex check tests `h1` twice (line 46 of
src/coder.rs, `HEXDIG.contains(&h1) && HEXDIG.contains(&h1)`); `h2` is
caught by the subsequent `to_digit(16)` match. -/
def decodeLoop (viable : Char → Bool) : List Char → List Char → Except Error (List Char)
  | [], out => .ok out
  | c :: input, out =>
    if c = '%' then
      match input with
      | h1 :: h2 :: input' =>
        if inHEXDIG h1 && inHEXDIG h1 then
          match hexVal? h1, hexVal? h2 with
          | some i1, some i2 =>
            if i1 > 7 then .error .IllegalPercentEncoding
            else decodeLoop viable input' (out ++ [Char.ofNat (i1 * 16 + i2)])
          | _, _ => .error .IllegalPercentEncoding
        else .error .IllegalPercentEncoding
      | _ => .error .IllegalPercentEncoding
    else if viable c then decodeLoop viable input (out ++ [c])
    else .error .IllegalCharacter

/-- `Decoder::new(input, viable).decode()` on a fresh decoder. -/
def decode (input : List Char) (viable : Char → Bool) : Except Error (List Char) :=
  decodeLoop viable input []

/-- Uppercase hex digit of `n < 16` (Rust `{:X}` digits). -/
def hexDigitUpper (n : Nat) : Char :=
  if n < 10 then Char.ofNat ('0'.toNat + n) else Char.ofNat ('A'.toNat + n - 10)

/-- Rust `format!("{:2X}", dec)` for `dec ≤ 255`: minimum width 2, padded on
the left with a SPACE (not `{:02X}`, which would zero-pad), uppercase hex. -/
def format2X (dec : Nat) : List Char :=
  if dec < 16 then [' ', hexDigitUpper dec]
  else [hexDigitUpper (dec / 16), hexDigitUpper (dec % 16)]

/-- The loop of `Encoder::encode`.  `char as u8` truncates the code point to
its low 8 bits, embedded as `c.toNat % 256`; the ASCII test `dec > 127`
happens after that truncation. -/
def encodeLoop (viable : Char → Bool) : List Char → List Char → Except Error (List Char)
  | [], out => .ok out
  | c :: input, out =>
    if viable c then encodeLoop viable input (out ++ [c])
    else
      let dec := c.toNat % 256
      if dec > 127 then .error .IllegalCharacter
      else
        match (format2X dec).head?, (format2X dec).getLast? with
        | some first, some last =>
            encodeLoop viable input (out ++ ['%', first, last])
        | _, _ => .error .IllegalPercentEncoding

/-- `Encoder::new(input, viable).encode()` on a fresh encoder. -/
def encode (input : List Char) (viable : Char → Bool) : Except Error (List Char) :=
  encodeLoop viable input []

/-! ## IP validators (src/ip.rs) -/

/-- State of `IPv6Parser`: the struct fields plus the loop-local `colon`
flag of `is_valid` ("the previous character was a colon"). -/
structure IPv6St where
  hadDoubleColon : Bool
  colonCounter : Nat
  charCounter : Nat
  colon : Bool
deriving DecidableEq

/-- One-pass loop of `IPv6Parser::is_valid`; `none` models an early
`return false`. -/
def ipv6Loop : IPv6St → List Char → Option IPv6St
  | st, [] => some st
  | st, c :: rest =>
    if c = ':' then
      if st.colonCounter ≥ 7 then none
      else if st.colon then
        if st.hadDoubleColon then none
        else ipv6Loop { st with hadDoubleColon := true, colonCounter := st.colonCounter + 1 } rest
      else ipv6Loop { st with colon := true, colonCounter := st.colonCounter + 1, charCounter := 0 } rest
    else
      if st.charCounter > 4 then none
      else if !inHEXDIG c then none
      else ipv6Loop { st with colon := false, charCounter := st.charCounter + 1 } rest

/-- `is_valid_ip_v6` (through `IPv6Parser::is_valid`): empty input is
invalid; after the scan the literal is valid iff `max_colons (=7) ≤
colon_counter` or a double colon was seen. -/
def isValidIpV6 (input : List Char) : Bool :=
  if input = [] then false
  else
    match ipv6Loop ⟨false, 0, 0, false⟩ input with
    | none => false
    | some st => decide (7 ≤ st.colonCounter) || st.hadDoubleColon

/-- `is_valid_ip_v_future`: first char `v`/`V`, second a HEXDIG, third `.`,
no `%` anywhere, and everything from index 3 on in STRIPPED_IP_FUTURE. -/
def isValidIpVFuture (input : List Char) : Bool :=
  if input.head? = some 'v' || input.head? = some 'V' then
    match input.get? 1, input.get? 2 with
    | some hexdig, some dot =>
      if inHEXDIG hexdig && dot = '.' && !input.contains '%' then
        (input.drop 3).all inSTRIPPED_IP_FUTURE
      else false
    | _, _ => false
  else false

/-! ## String-splitting helpers (Rust `str` methods used by the crate) -/

/-- Rust `str::find(c)`: index of the first occurrence of `c`. -/
def findChar (c : Char) : List Char → Option Nat
  | [] => none
  | x :: xs => if x = c then some 0 else (findChar c xs).map (· + 1)

/-- Rust `str::split_once(c)`: the parts before and after the first
occurrence of `c`, or `none` if `c` does not occur. -/
def splitOnce (sep : Char) : List Char → Option (List Char × List Char)
  | [] => none
  | x :: xs =>
    if x = sep then some ([], xs)
    else (splitOnce sep xs).map (fun p => (x :: p.1, p.2))

/-- Rust `str::rsplit_once(c)`: the parts before and after the last
occurrence of `c`. -/
def rsplitOnce (sep : Char) (l : List Char) : Option (List Char × List Char) :=
  match splitOnce sep l.reverse with
  | none => none
  | some (a, b) => some (b.reverse, a.reverse)

/-! ## Authority (src/authority.rs) -/

/-- The `Authority` struct; `port: Option<u16>` is embedded as an optional
`Nat` (every value the code constructs is ≤ 65535). -/
structure Authority where
  userinfo : Option (List Char)
  host : Option (List Char)
  port : Option Nat
deriving DecidableEq

/-- `Authority::split_userinfo`: `split_once('@')` (the FIRST `@`), then
degenerate empty halves collapse to `None`. -/
def splitUserinfo (authString : List Char) : Option (List Char) × Option (List Char) :=
  match splitOnce '@' authString with
  | none => (none, some authString)
  | some (useri, rest) =>
    match useri, rest with
    | [], [] => (none, none)
    | [], r => (none, some r)
    | i, [] => (some i, none)
    | i, r => (some i, some r)

/-- `Authority::split_host`: for a `[`-opened host the port-separating `:`
is searched only after the first `]` (index `delim`); empty halves of the
split collapse to `None`. -/
def splitHost (hostPort : List Char) : Except Error (Option (List Char) × Option (List Char)) :=
  match (if hostPort.head? = some '[' then
           match findChar ']' hostPort with
           | none => none
           | some i => some (i + 1)
         else some 0) with
  | none => .error .IllegaHostDefinition
  | some delim =>
    match findChar ':' (hostPort.drop delim) with
    | none => .ok (some hostPort, none)
    | some colon =>
      match hostPort.take (delim + colon), hostPort.drop (delim + colon + 1) with
      | [], [] => .ok (none, none)
      | [], p => .ok (none, some p)
      | h, [] => .ok (some h, none)
      | h, p => .ok (some h, some p)

/-- `Authority::parse_userinfo`: decode against USER_INFO, remapping
`IllegalCharacter` to `UserinfoIllegalCharacter`. -/
def parseUserinfo (userInfo : List Char) : Except Error (List Char) :=
  match decode userInfo inUSER_INFO with
  | .error .IllegalCharacter => .error .UserinfoIllegalCharacter
  | .error e => .error e
  | .ok s => .ok s

/-- `Authority::parse_host`.  Faithful to the source: `ends_with` is
computed as `host.starts_with('[')` (the copy-paste on line 133), the
"stripped" interior is `host[1..host.len()-2]` (dropping the last TWO
characters), and the IPvFuture branch fires only on a lowercase `v`. -/
def parseHost (host : List Char) : Except Error (List Char) :=
  let startsWith := host.head? = some '['
  let endsWith := host.head? = some '['
  if (startsWith && !endsWith) || (!startsWith && endsWith) then
    .error .IllegaHostDefinition
  else if startsWith && endsWith then
    if host.length < 4 then .error .IllegaHostDefinition
    else
      let hostStripped := (host.take (host.length - 2)).drop 1
      if hostStripped.head? = some 'v' then
        if isValidIpVFuture hostStripped then .ok host
        else .error .IllegalIPvFuture
      else if isValidIpV6 hostStripped then .ok host
      else .error .IllegalIPv6
  else
    match decode host inREG_NAME with
    | .error .IllegalCharacter => .error .HostIllegalCharacter
    | .error e => .error e
    | .ok r => .ok r

/-- Digit value of a decimal ASCII digit, Rust `to_digit(10)`. -/
def digitVal? (c : Char) : Option Nat :=
  if '0' ≤ c && c ≤ '9' then some (c.toNat - '0'.toNat) else none

/-- Digit-accumulation loop of Rust `u16::from_str` (checked arithmetic:
any intermediate value above `u16::MAX` is an overflow error). -/
def parseU16Loop : List Char → Nat → Option Nat
  | [], acc => some acc
  | c :: rest, acc =>
    match digitVal? c with
    | none => none
    | some d =>
      if acc * 10 + d > 65535 then none
      else parseU16Loop rest (acc * 10 + d)

/-- Rust `str::parse::<u16>()`: an optional single leading `+` is accepted
(a `-` never is for an unsigned type), then one or more decimal digits. -/
def parseU16? : List Char → Option Nat
  | [] => none
  | '+' :: rest =>
    match rest with
    | [] => none
    | _ => parseU16Loop rest 0
  | '-' :: _ => none
  | l => parseU16Loop l 0

/-- `Authority::parse_port`: any `u16` parse failure is `ParsePortError`. -/
def parsePort (portStr : List Char) : Except Error Nat :=
  match parseU16? portStr with
  | none => .error .ParsePortError
  | some port => .ok port

/-- `Authority::parse`.  The `?`-propagation of the Rust function is
written with explicit `Except.bind`. -/
def authorityParse (authString : List Char) : Except Error (Option Authority) :=
  if authString = [] then .ok none
  else
    match splitUserinfo authString with
    | (userinfo, rest) =>
      Except.bind
        (match rest with
         | none => .ok ((none : Option (List Char)), (none : Option (List Char)))
         | some r => splitHost r) fun hostPort =>
      Except.bind
        (match userinfo with
         | none => .ok (none : Option (List Char))
         | some useri => Except.map some (parseUserinfo useri)) fun parsedUserinfo =>
      Except.bind
        (match hostPort.1 with
         | none => .ok (none : Option (List Char))
         | some h => Except.map some (parseHost h)) fun parsedHost =>
      Except.bind
        (match hostPort.2 with
         | none => .ok (none : Option Nat)
         | some p => Except.map some (parsePort p)) fun parsedPort =>
      match parsedUserinfo, parsedHost, parsedPort with
      | none, none, none => .ok none
      | _, _, _ => .ok (some ⟨parsedUserinfo, parsedHost, parsedPort⟩)

/-- Decimal digits of `n`, least significant digit pushed first onto `acc`
(Rust `u16::to_string`).  The first argument is recursion fuel so that the
definition is structural (and hence evaluates inside the kernel); `n + 1`
always suffices since `n / 10 < n`. -/
def natToStringGo : Nat → Nat → List Char → List Char
  | 0, _, acc => acc
  | fuel + 1, n, acc =>
    let d := Char.ofNat ('0'.toNat + n % 10)
    if n < 10 then d :: acc
    else natToStringGo fuel (n / 10) (d :: acc)

/-- Rust `u16::to_string`. -/
def natToString (n : Nat) : List Char := natToStringGo (n + 1) n []

/-- Claim-side value of a decimal digit string read from `acc`. -/
def digitsValFrom (acc : Nat) : List Char → Nat
  | [] => acc
  | c :: rest => digitsValFrom (acc * 10 + (c.toNat - '0'.toNat)) rest

/-- Claim-side value of a decimal digit string. -/
def digitsVal (l : List Char) : Nat := digitsValFrom 0 l

/-- `Authority::stringify`: `None` when all fields are absent; bracketed
hosts (`starts_with('[')`) are emitted verbatim, registered names are
re-encoded against REG_NAME. -/
def authorityStringify (a : Authority) : Except Error (Option (List Char)) :=
  if a.port.isNone && a.host.isNone && a.userinfo.isNone then .ok none
  else
    Except.bind
      (match a.userinfo with
       | none => .ok ([] : List Char)
       | some ui => Except.bind (encode ui inUSER_INFO) fun e => .ok (e ++ ['@']))
      fun out1 =>
    Except.bind
      (match a.host with
       | none => .ok out1
       | some ho =>
         if ho.head? = some '[' then .ok (out1 ++ ho)
         else Except.bind (encode ho inREG_NAME) fun e => .ok (out1 ++ e))
      fun out2 =>
    .ok (some (match a.port with
       | none => out2
       | some po => out2 ++ ':' :: natToString po))

/-! ## Uri (src/uri.rs) -/

/-- The `Uri` struct. -/
structure Uri where
  scheme : Option (List Char)
  authority : Option Authority
  path : List Char
  query : Option (List Char)
  fragment : Option (List Char)
deriving DecidableEq

/-- ASCII lowercasing of one character.  `Uri::parse_scheme` calls Rust
`String::to_lowercase` only on strings whose characters were validated
against SCHEME (all ASCII), where the Unicode and the ASCII lowercase maps
coincide. -/
def lowerChar (c : Char) : Char :=
  if 'A' ≤ c && c ≤ 'Z' then Char.ofNat (c.toNat + 32) else c

/-- `Uri::split_scheme`: the `:` is searched only in the part before the
first `/` (or the whole string when there is no `/`). -/
def splitScheme (uriString : List Char) : Except Error (Option (List Char) × List Char) :=
  let delim := (findChar '/' uriString).getD uriString.length
  match findChar ':' (uriString.take delim) with
  | none => .ok (none, uriString)
  | some schemeEnd =>
    if uriString.take schemeEnd = [] then .error .EmptyScheme
    else .ok (some (uriString.take schemeEnd), uriString.drop (schemeEnd + 1))

/-- `Uri::split_fragment`: `rsplit_once('#')` — the LAST `#`. -/
def splitFragment (withoutScheme : List Char) : Option (List Char) × List Char :=
  match rsplitOnce '#' withoutScheme with
  | some (rest, fragment) => (some fragment, rest)
  | none => (none, withoutScheme)

/-- `Uri::split_query`: `split_once('?')` — the FIRST `?`. -/
def splitQuery (authorityPathQuery : List Char) : Option (List Char) × List Char :=
  match splitOnce '?' authorityPathQuery with
  | some (rest, queryString) => (some queryString, rest)
  | none => (none, authorityPathQuery)

/-- `Uri::split_authority_and_path`: after stripping a leading `//` the
authority runs to the next `/` (or the end); a zero-length authority is
`EmptyAuthority`. -/
def splitAuthorityAndPath (authorityPath : List Char) :
    Except Error (Option (List Char) × List Char) :=
  match authorityPath with
  | '/' :: '/' :: stripped =>
    if stripped = [] then .error .EmptyAuthority
    else
      let authEnd := (findChar '/' stripped).getD stripped.length
      if authEnd = 0 then .error .EmptyAuthority
      else if authEnd = stripped.length then .ok (some stripped, [])
      else .ok (some (stripped.take authEnd), stripped.drop authEnd)
  | other => .ok (none, other)

/-- `Uri::parse_scheme`: no `%` at all, first character ALPHA, remaining
characters validated against SCHEME by the decoder, result lowercased. -/
def parseScheme (schemeString : List Char) : Except Error (List Char) :=
  if schemeString.contains '%' then .error .SchemeIllegalCharacter
  else
    match schemeString.head? with
    | none => .error .EmptyScheme
    | some firstChar =>
      if !inALPHA firstChar then .error .SchemeIllegalFirstCharacter
      else
        match decode schemeString inSCHEME with
        | .error .IllegalCharacter => .error .SchemeIllegalCharacter
        | .error e => .error e
        | .ok decodedScheme => .ok (decodedScheme.map lowerChar)

/-- `Uri::parse_path`: must not start with `//`, then decode against PATH. -/
def parsePath (pathString : List Char) : Except Error (List Char) :=
  match pathString with
  | '/' :: '/' :: _ => .error .PathIllegalStart
  | _ =>
    match decode pathString inPATH with
    | .error .IllegalCharacter => .error .PathIllegalCharacter
    | .error e => .error e
    | .ok result => .ok result

/-- `Uri::parse_query`: decode against QUERY. -/
def parseQuery (queryString : List Char) : Except Error (List Char) :=
  match decode queryString inQUERY with
  | .error .IllegalCharacter => .error .QueryIllegalCharacter
  | .error e => .error e
  | .ok decodedQuery => .ok decodedQuery

/-- `Uri::parse_fragment`: decode against FRAGMENT. -/
def parseFragment (fragmentString : List Char) : Except Error (List Char) :=
  match decode fragmentString inFRAGMENT with
  | .error .IllegalCharacter => .error .FragmentIllegalCharacter
  | .error e => .error e
  | .ok decodedFragment => .ok decodedFragment

/-- `Uri::parse`.  The splits happen first (scheme, fragment, query,
authority/path), then the pieces are validated in the source's order
(scheme, fragment, query, path, authority); `?`-propagation is written
with explicit `Except.bind`. -/
def uriParse (uriString : List Char) : Except Error Uri :=
  if uriString = [] then .ok ⟨none, none, [], none, none⟩
  else
    Except.bind (splitScheme uriString) fun sw =>
    match splitFragment sw.2 with
    | (fragment, authorityPathQuery) =>
      match splitQuery authorityPathQuery with
      | (query, authorityPath) =>
        Except.bind (splitAuthorityAndPath authorityPath) fun ap =>
        Except.bind
          (match sw.1 with
           | none => .ok (none : Option (List Char))
           | some schemeString => Except.map some (parseScheme schemeString))
          fun parsedScheme =>
        Except.bind
          (match fragment with
           | none => .ok (none : Option (List Char))
           | some fragmentString => Except.map some (parseFragment fragmentString))
          fun parsedFragment =>
        Except.bind
          (match query with
           | none => .ok (none : Option (List Char))
           | some queryString => Except.map some (parseQuery queryString))
          fun parsedQuery =>
        Except.bind (parsePath ap.2) fun parsedPath =>
        Except.bind
          (match ap.1 with
           | none => .ok (none : Option Authority)
           | some authString => authorityParse authString)
          fun parsedAuthority =>
        .ok ⟨parsedScheme, parsedAuthority, parsedPath, parsedQuery, parsedFragment⟩

/-- `Uri::stringify`: scheme + `:`, `//` + authority (when the authority
stringifies to a value), path, `?` + query, `#` + fragment. -/
def uriStringify (u : Uri) : Except Error (List Char) :=
  Except.bind
    (match u.scheme with
     | none => .ok ([] : List Char)
     | some sch => Except.bind (encode sch inSCHEME) fun e => .ok (e ++ [':']))
    fun out1 =>
  Except.bind
    (match u.authority with
     | none => .ok out1
     | some au =>
       Except.bind (authorityStringify au) fun auOpt =>
       match auOpt with
       | none => .ok out1
       | some auStr => .ok (out1 ++ '/' :: '/' :: auStr))
    fun out2 =>
  Except.bind (encode u.path inPATH) fun pathEnc =>
  Except.bind
    (match u.query with
     | none => .ok (out2 ++ pathEnc)
     | some qu => Except.bind (encode qu inQUERY) fun e => .ok (out2 ++ pathEnc ++ '?' :: e))
    fun out4 =>
  match u.fragment with
  | none => .ok out4
  | some fr => Except.bind (encode fr inFRAGMENT) fun e => .ok (out4 ++ '#' :: e)

/-! ## Round-trip side conditions (C1, claim-side definitions)

The following definitions state the AMENDED claim C1, not the source:
they carve out the inputs on which the parse/stringify round trip
reproduces the input.  They are phrased over the source's own splitters
so that they can be evaluated on concrete strings. -/

/-- A port string that `u16::to_string` reproduces: nonempty, all decimal
digits (in particular no `+` sign), and no redundant leading zero. -/
def portCanonical (p : List Char) : Bool :=
  !p.isEmpty && p.all inDIGIT && (p == ['0'] || !(p.head? == some '0'))

/-- The host:port side of an authority string survives the round trip:
whenever a port-separating `:` is found (searched after the first `]` for
a `[`-opened host, exactly as `split_host` does), the part after it must
be a canonical port — this rules out the dropped trailing `:` and the
non-canonical port spellings `+80`/`080`. -/
def hostPortSafe (r : List Char) : Bool :=
  match (if r.head? = some '[' then
           match findChar ']' r with
           | none => none
           | some i => some (i + 1)
         else some 0) with
  | none => true
  | some delim =>
    match findChar ':' (r.drop delim) with
    | none => true
    | some colon => portCanonical (r.drop (delim + colon + 1))

/-- An authority string survives the round trip: a leading `@` never does
(an empty userinfo collapses to `None` and its `@` is not re-emitted),
a trailing `@` is fine, and the host:port part after the first `@` (or
the whole string when there is no `@`) must be `hostPortSafe`. -/
def authStringSafe (a : List Char) : Bool :=
  match splitOnce '@' a with
  | none => hostPortSafe a
  | some (useri, rest) => !useri.isEmpty && (rest.isEmpty || hostPortSafe rest)

/-- The whole URI string survives the round trip: the authority part,
when the source's splitters find one, must be `authStringSafe` (scheme,
path, query and fragment always survive on percent-free accepted input). -/
def roundTripSafe (s : List Char) : Bool :=
  match splitScheme s with
  | .error _ => true
  | .ok (_, rest) =>
    match splitAuthorityAndPath (splitQuery (splitFragment rest).2).2 with
    | .ok (some a, _) => authStringSafe a
    | _ => true

/-- `s` with its scheme part (as `Uri::split_scheme` finds it)
lowercased: the claimed value of the round trip. -/
def schemeLowered (s : List Char) : List Char :=
  match splitScheme s with
  | .ok (some sch, rest) => sch.map lowerChar ++ ':' :: rest
  | _ => s

/-! ## Basic facts -/

theorem toNat_ofNat_valid {n : Nat} (h : n < 55296) : (Char.ofNat n).toNat = n := by
  unfold Char.ofNat
  rw [dif_pos (Or.inl h)]
  rfl

theorem char_le_iff {a b : Char} : a ≤ b ↔ a.toNat ≤ b.toNat :=
  ⟨fun h => h, fun h => h⟩

theorem char_eq_of_toNat {a b : Char} (h : a.toNat = b.toNat) : a = b := by
  apply Char.ext
  exact UInt32.ext h

/-- The decoder factors over its output accumulator. -/
theorem decodeLoop_append (v : Char → Bool) : ∀ (l out : List Char),
    decodeLoop v l out = Except.map (out ++ ·) (decodeLoop v l [])
  | [], out => by simp [decodeLoop, Except.map]
  | c :: input, out => by
    by_cases hc : c = '%'
    · subst hc
      match input with
      | [] => simp [decodeLoop, Except.map]
      | [h1] => simp [decodeLoop, Except.map]
      | h1 :: h2 :: t =>
        simp only [decodeLoop]
        by_cases hh : inHEXDIG h1
        · simp only [hh, Bool.and_self, if_true]
          cases hv1 : hexVal? h1 with
          | none => simp [Except.map]
          | some i1 =>
            cases hv2 : hexVal? h2 with
            | none => simp [Except.map]
            | some i2 =>
              simp only []
              by_cases hi : i1 > 7
              · simp [hi, Except.map]
              · simp only [hi, if_false]
                rw [decodeLoop_append v t (out ++ [Char.ofNat (i1 * 16 + i2)]),
                    decodeLoop_append v t ([] ++ [Char.ofNat (i1 * 16 + i2)])]
                cases decodeLoop v t [] <;> simp [Except.map]
        · simp [hh, Except.map]
    · conv_lhs => rw [decodeLoop.eq_def]
      conv_rhs => rw [decodeLoop.eq_def]
      simp only [if_neg hc]
      by_cases hv : v c
      · simp only [hv, if_true]
        rw [decodeLoop_append v input (out ++ [c]), decodeLoop_append v input ([] ++ [c])]
        cases decodeLoop v input [] <;> simp [Except.map]
      · simp [hv, Except.map]

/-- The encoder factors over its output accumulator. -/
theorem encodeLoop_append (v : Char → Bool) : ∀ (l out : List Char),
    encodeLoop v l out = Except.map (out ++ ·) (encodeLoop v l [])
  | [], out => by simp [encodeLoop, Except.map]
  | c :: input, out => by
    simp only [encodeLoop]
    by_cases hv : v c
    · simp only [hv, if_true]
      rw [encodeLoop_append v input (out ++ [c]), encodeLoop_append v input ([] ++ [c])]
      cases encodeLoop v input [] <;> simp [Except.map]
    · simp only [hv, if_false]
      by_cases hd : c.toNat % 256 > 127
      · simp [hd, Except.map]
      · simp only [hd, if_false]
        cases hh : (format2X (c.toNat % 256)).head? with
        | none => simp [Except.map]
        | some first =>
          cases hl : (format2X (c.toNat % 256)).getLast? with
          | none => simp [Except.map]
          | some last =>
            simp only []
            rw [encodeLoop_append v input (out ++ ['%', first, last]),
                encodeLoop_append v input ([] ++ ['%', first, last])]
            cases encodeLoop v input [] <;> simp [Except.map]

/-- Decoding a percent-free string: it succeeds exactly on all-viable
input and is then the identity. -/
theorem decodeLoop_no_pct_ok {v : Char → Bool} :
    ∀ {l out r : List Char}, '%' ∉ l → decodeLoop v l out = .ok r →
      r = out ++ l ∧ ∀ c ∈ l, v c := by
  intro l
  induction l with
  | nil =>
    intro out r _ h
    simp [decodeLoop] at h
    simp [h.symm]
  | cons c input ih =>
    intro out r hpct h
    have hc : ¬ (c = '%') := fun hh => hpct (hh ▸ List.mem_cons_self c input)
    rw [decodeLoop.eq_def] at h
    simp only [if_neg hc] at h
    by_cases hv : v c
    · simp only [hv, if_true] at h
      have hpct' : '%' ∉ input := fun hh => hpct (List.mem_cons_of_mem c hh)
      obtain ⟨hr, hall⟩ := ih hpct' h
      refine ⟨by simp [hr], ?_⟩
      intro x hx
      rcases List.mem_cons.mp hx with hx | hx
      · exact hx ▸ hv
      · exact hall x hx
    · simp [hv] at h

/-- Decoding all-viable percent-free input is the identity. -/
theorem decodeLoop_all_viable {v : Char → Bool} :
    ∀ {l : List Char} (out : List Char), (∀ c ∈ l, ¬ (c = '%') ∧ v c) →
      decodeLoop v l out = .ok (out ++ l) := by
  intro l
  induction l with
  | nil => intro out _; simp [decodeLoop]
  | cons c input ih =>
    intro out hall
    have hc := (hall c (List.mem_cons_self c input)).1
    have hv := (hall c (List.mem_cons_self c input)).2
    rw [decodeLoop.eq_def]
    simp only [if_neg hc, hv, if_true]
    have := ih (out ++ [c]) (fun x hx => hall x (List.mem_cons_of_mem c hx))
    simpa using this

/-- Encoding all-viable input is the identity. -/
theorem encodeLoop_all_viable {v : Char → Bool} :
    ∀ {l : List Char} (out : List Char), (∀ c ∈ l, v c) →
      encodeLoop v l out = .ok (out ++ l) := by
  intro l
  induction l with
  | nil => intro out _; simp [encodeLoop]
  | cons c input ih =>
    intro out hall
    have hv := hall c (List.mem_cons_self c input)
    rw [encodeLoop.eq_def]
    simp only [hv, if_true]
    have := ih (out ++ [c]) (fun x hx => hall x (List.mem_cons_of_mem c hx))
    simpa using this

/-- `format2X` always yields exactly two characters. -/
theorem format2X_shape (n : Nat) : ∃ a b, format2X n = [a, b] := by
  unfold format2X
  by_cases h : n < 16
  · exact ⟨_, _, if_pos h⟩
  · exact ⟨_, _, if_neg h⟩

/-- The encoder succeeds on every string of 7-bit characters. -/
theorem encodeLoop_ascii_ok {v : Char → Bool} :
    ∀ {l : List Char} (out : List Char), (∀ c ∈ l, c.toNat ≤ 127) →
      ∃ r, encodeLoop v l out = .ok r := by
  intro l
  induction l with
  | nil => intro out _; exact ⟨out, rfl⟩
  | cons c input ih =>
    intro out hall
    have hc : c.toNat ≤ 127 := hall c (List.mem_cons_self c input)
    have hrest : ∀ x ∈ input, x.toNat ≤ 127 :=
      fun x hx => hall x (List.mem_cons_of_mem c hx)
    rw [encodeLoop.eq_def]
    by_cases hv : v c
    · simp only [hv, if_true]
      exact ih (out ++ [c]) hrest
    · simp only [hv, if_false]
      have hdec : ¬ (c.toNat % 256 > 127) := by
        have : c.toNat % 256 ≤ c.toNat := Nat.mod_le _ _
        omega
      simp only [hdec, if_false]
      obtain ⟨a, b, hfmt⟩ := format2X_shape (c.toNat % 256)
      rw [hfmt]
      simp only [List.head?, List.getLast?]
      exact ih (out ++ ['%', a, b]) hrest

/-- Bound on `to_digit(16)` values. -/
theorem hexVal_le {c : Char} {i : Nat} (h : hexVal? c = some i) : i ≤ 15 := by
  unfold hexVal? at h
  split at h
  case isTrue h1 =>
    have hlo := char_le_iff.mp (of_decide_eq_true (Bool.and_elim_left h1))
    have hhi := char_le_iff.mp (of_decide_eq_true (Bool.and_elim_right h1))
    have h0 : '0'.toNat = 48 := rfl
    have h9 : '9'.toNat = 57 := rfl
    simp only [Option.some.injEq] at h
    omega
  case isFalse h1 =>
    split at h
    case isTrue h2 =>
      have hhi := char_le_iff.mp (of_decide_eq_true (Bool.and_elim_right h2))
      have hA : 'A'.toNat = 65 := rfl
      have hF : 'F'.toNat = 70 := rfl
      simp only [Option.some.injEq] at h
      omega
    case isFalse h2 =>
      split at h
      case isTrue h3 =>
        have hhi := char_le_iff.mp (of_decide_eq_true (Bool.and_elim_right h3))
        have ha : 'a'.toNat = 97 := rfl
        have hf : 'f'.toNat = 102 := rfl
        simp only [Option.some.injEq] at h
        omega
      case isFalse h3 => simp at h

/-- Every character the decoder emits is 7-bit, provided the viable class
is 7-bit. -/
theorem decodeLoop_ascii {v : Char → Bool} (hv : ∀ c, v c → c.toNat ≤ 127) :
    ∀ (l out r : List Char), decodeLoop v l out = .ok r →
      (∀ c ∈ out, c.toNat ≤ 127) → ∀ c ∈ r, c.toNat ≤ 127
  | [], out, r => by
    intro h hout
    simp [decodeLoop] at h
    exact h ▸ hout
  | c :: input, out, r => by
    intro h hout
    by_cases hc : c = '%'
    · subst hc
      match input with
      | [] => simp [decodeLoop] at h
      | [h1] => simp [decodeLoop] at h
      | h1 :: h2 :: t =>
        rw [decodeLoop.eq_def] at h
        simp only [if_pos rfl] at h
        by_cases hh : inHEXDIG h1
        · simp only [hh, Bool.and_self, if_true] at h
          cases hv1 : hexVal? h1 with
          | none => rw [hv1] at h; simp at h
          | some i1 =>
            cases hv2 : hexVal? h2 with
            | none => rw [hv1, hv2] at h; simp at h
            | some i2 =>
              rw [hv1, hv2] at h
              simp only [] at h
              by_cases hi : i1 > 7
              · simp [hi] at h
              · simp only [hi, if_false] at h
                refine decodeLoop_ascii hv t _ r h ?_
                intro x hx
                rcases List.mem_append.mp hx with hx | hx
                · exact hout x hx
                · have hx1 : x = Char.ofNat (i1 * 16 + i2) := List.mem_singleton.mp hx
                  have hb : i1 * 16 + i2 ≤ 127 := by
                    have := hexVal_le hv2
                    omega
                  rw [hx1, toNat_ofNat_valid (by omega)]
                  exact hb
        · simp [hh] at h
    · rw [decodeLoop.eq_def] at h
      simp only [if_neg hc] at h
      by_cases hvc : v c
      · simp only [hvc, if_true] at h
        refine decodeLoop_ascii hv input _ r h ?_
        intro x hx
        rcases List.mem_append.mp hx with hx | hx
        · exact hout x hx
        · exact (List.mem_singleton.mp hx) ▸ hv c hvc
      · simp [hvc] at h

/-! ## The character classes are 7-bit -/

theorem inALPHA_ascii {c : Char} (h : inALPHA c = true) : c.toNat ≤ 127 := by
  simp only [inALPHA, Bool.or_eq_true, Bool.and_eq_true] at h
  have hz : 'z'.toNat = 122 := rfl
  have hZ : 'Z'.toNat = 90 := rfl
  rcases h with ⟨_, h⟩ | ⟨_, h⟩ <;>
    have := char_le_iff.mp (of_decide_eq_true h) <;> omega

theorem inDIGIT_ascii {c : Char} (h : inDIGIT c = true) : c.toNat ≤ 127 := by
  simp only [inDIGIT, Bool.and_eq_true] at h
  have h9 : '9'.toNat = 57 := rfl
  have := char_le_iff.mp (of_decide_eq_true h.2)
  omega

theorem inSUB_DELIMS_ascii {c : Char} (h : inSUB_DELIMS c = true) : c.toNat ≤ 127 := by
  simp only [inSUB_DELIMS, Bool.or_eq_true, decide_eq_true_eq] at h
  rcases h with ((((((((((h | h) | h) | h) | h) | h) | h) | h) | h) | h) | h) <;>
    subst h <;> decide

theorem inUNRESERVED_ascii {c : Char} (h : inUNRESERVED c = true) : c.toNat ≤ 127 := by
  simp only [inUNRESERVED, Bool.or_eq_true, decide_eq_true_eq] at h
  rcases h with ((((h | h) | h) | h) | h) | h
  · exact inALPHA_ascii h
  · exact inDIGIT_ascii h
  all_goals subst h; decide

theorem inSCHEME_ascii {c : Char} (h : inSCHEME c = true) : c.toNat ≤ 127 := by
  simp only [inSCHEME, Bool.or_eq_true, decide_eq_true_eq] at h
  rcases h with (((h | h) | h) | h) | h
  · exact inALPHA_ascii h
  · exact inDIGIT_ascii h
  all_goals subst h; decide

theorem inUSER_INFO_ascii {c : Char} (h : inUSER_INFO c = true) : c.toNat ≤ 127 := by
  simp only [inUSER_INFO, Bool.or_eq_true] at h
  rcases h with h | h
  · exact inUNRESERVED_ascii h
  · exact inSUB_DELIMS_ascii h

theorem inREG_NAME_ascii {c : Char} (h : inREG_NAME c = true) : c.toNat ≤ 127 := by
  simp only [inREG_NAME, Bool.or_eq_true, decide_eq_true_eq] at h
  rcases h with (h | h) | h
  · exact inUNRESERVED_ascii h
  · exact inSUB_DELIMS_ascii h
  · subst h; decide

theorem inPATH_ascii {c : Char} (h : inPATH c = true) : c.toNat ≤ 127 := by
  simp only [inPATH, Bool.or_eq_true, decide_eq_true_eq] at h
  rcases h with (((h | h) | h) | h) | h
  · exact inUNRESERVED_ascii h
  · exact inSUB_DELIMS_ascii h
  all_goals subst h; decide

theorem inQUERY_ascii {c : Char} (h : inQUERY c = true) : c.toNat ≤ 127 := by
  simp only [inQUERY, Bool.or_eq_true, decide_eq_true_eq] at h
  rcases h with ((((h | h) | h) | h) | h) | h
  · exact inUNRESERVED_ascii h
  · exact inSUB_DELIMS_ascii h
  all_goals subst h; decide

theorem inFRAGMENT_ascii {c : Char} (h : inFRAGMENT c = true) : c.toNat ≤ 127 := by
  simp only [inFRAGMENT, Bool.or_eq_true, decide_eq_true_eq] at h
  rcases h with ((((h | h) | h) | h) | h) | h
  · exact inUNRESERVED_ascii h
  · exact inSUB_DELIMS_ascii h
  all_goals subst h; decide

/-! ## HEXDIG membership vs `to_digit(16)` -/

theorem inHEXDIG_iff_hexVal {c : Char} : inHEXDIG c = true ↔ (hexVal? c).isSome = true := by
  by_cases h1 : ('0' ≤ c && c ≤ '9') = true <;>
    by_cases h2 : ('a' ≤ c && c ≤ 'f') = true <;>
      by_cases h3 : ('A' ≤ c && c ≤ 'F') = true <;>
        simp [inHEXDIG, inDIGIT, hexVal?, h1, h2, h3]

theorem hexVal_none {c : Char} (h : inHEXDIG c = false) : hexVal? c = none := by
  rcases ho : hexVal? c with _ | i
  · rfl
  · have : (hexVal? c).isSome = true := by rw [ho]; rfl
    rw [inHEXDIG_iff_hexVal.mpr this] at h
    cases h

/-! ## Claim theorems -/

/-- C7: when the decoder consumes a `%`, it must be followed by exactly two
more characters, both HEXDIG, else it fails with `IllegalPercentEncoding`;
the two hex digits are converted to a byte that must be ≤ 0x7F, else
`IllegalPercentEncoding`; when the conditions hold the decoded character is
appended to the output without any test against the supplied class. -/
theorem claim_C7 (viable : Char → Bool) (t out : List Char) :
    (t.length < 2 → decodeLoop viable ('%' :: t) out = .error .IllegalPercentEncoding) ∧
    (∀ h1 h2 t', t = h1 :: h2 :: t' →
      (¬ (inHEXDIG h1 = true ∧ inHEXDIG h2 = true) →
        decodeLoop viable ('%' :: t) out = .error .IllegalPercentEncoding) ∧
      (∀ i1 i2, hexVal? h1 = some i1 → hexVal? h2 = some i2 →
        (127 < i1 * 16 + i2 →
          decodeLoop viable ('%' :: t) out = .error .IllegalPercentEncoding) ∧
        (i1 * 16 + i2 ≤ 127 →
          decodeLoop viable ('%' :: t) out =
            decodeLoop viable t' (out ++ [Char.ofNat (i1 * 16 + i2)])))) := by
  constructor
  · intro hlen
    match t, hlen with
    | [], _ => simp [decodeLoop]
    | [h1], _ => simp [decodeLoop]
  · intro h1 h2 t' ht
    subst ht
    constructor
    · intro hnot
      rw [decodeLoop.eq_def]
      simp only [if_pos rfl]
      by_cases hh1 : inHEXDIG h1 = true
      · have hh2 : inHEXDIG h2 = false := by
          rcases Bool.eq_false_or_eq_true (inHEXDIG h2) with h | h
          · exact absurd ⟨hh1, h⟩ hnot
          · exact h
        rw [hh1]
        simp only [Bool.and_self, if_true]
        rw [hexVal_none hh2]
        rcases hexVal? h1 with _ | i1 <;> rfl
      · have hh1' : inHEXDIG h1 = false := by
          rcases Bool.eq_false_or_eq_true (inHEXDIG h1) with h | h
          · exact absurd h hh1
          · exact h
        rw [hh1']
        rfl
    · intro i1 i2 hv1 hv2
      have hh1 : inHEXDIG h1 = true :=
        inHEXDIG_iff_hexVal.mpr (by rw [hv1]; rfl)
      have hi2 : i2 ≤ 15 := hexVal_le hv2
      constructor
      · intro hbig
        rw [decodeLoop.eq_def]
        simp only [if_pos rfl, hh1, Bool.and_self, if_true]
        rw [hv1, hv2]
        have : i1 > 7 := by omega
        simp [this]
      · intro hsmall
        rw [decodeLoop.eq_def]
        simp only [if_pos rfl, hh1, Bool.and_self, if_true]
        rw [hv1, hv2]
        have : ¬ (i1 > 7) := by omega
        simp [this]

/-- Witness for C7 at concrete inputs: `%41` against ALPHA decodes and
continues with `A` appended (ALPHA is irrelevant), `%8F` overflows 0x7F,
`%g1` has a non-HEXDIG digit, and a bare `%` has fewer than two
characters following. -/
theorem claim_C7_witness :
    decodeLoop inALPHA ['%', '4', '1'] [] =
      decodeLoop inALPHA [] ([] ++ [Char.ofNat (4 * 16 + 1)]) ∧
    decodeLoop inALPHA ['%', '8', 'F'] [] = .error .IllegalPercentEncoding ∧
    decodeLoop inALPHA ['%', 'g', '1'] [] = .error .IllegalPercentEncoding ∧
    decodeLoop inALPHA ['%'] [] = .error .IllegalPercentEncoding := by
  refine ⟨?_, ?_, ?_, ?_⟩
  · exact (((claim_C7 inALPHA ['4', '1'] []).2 '4' '1' [] rfl).2 4 1 (by decide)
      (by decide)).2 (by decide)
  · exact (((claim_C7 inALPHA ['8', 'F'] []).2 '8' 'F' [] rfl).2 8 15 (by decide)
      (by decide)).1 (by decide)
  · exact ((claim_C7 inALPHA ['g', '1'] []).2 'g' '1' [] rfl).1 (by decide)
  · exact (claim_C7 inALPHA ['%'] []).1 (by decide)

/-- C3 (code bug): outside-class characters below 0x10 are percent-encoded
with a SPACE-padded hex pair (`{:2X}`), e.g. U+000D yields `"% D"` instead
of the claimed `"%0D"`; and a character ≥ 0x100 whose low byte is ≤ 0x7F
(here U+0100) is not rejected as non-ASCII but encoded from its truncated
byte, instead of the claimed `IllegalCharacter`.  The crate's own decoder
rejects the `"% D"` output. -/
theorem claim_C3 :
    encode [Char.ofNat 13] inALPHA = .ok ['%', ' ', 'D'] ∧
    encode [Char.ofNat 256] inALPHA = .ok ['%', ' ', '0'] ∧
    decode ['%', ' ', 'D'] inALPHA = .error .IllegalPercentEncoding := by
  decide

/-- C2 (code bug): `Authority::parse("[::]")` fails with `IllegalIPv6`
even though the code's own comment calls `[::]` the minimal legal form:
`parse_host` validates `host[1..len-2]` — here `":"` — dropping the final
interior character.  Likewise `[::G]` is accepted (its `G` is never
checked), and an uppercase-`V` IPvFuture literal is routed to the IPv6
validator (only lowercase `v` is dispatched) although the IPvFuture
validator itself accepts it. -/
theorem claim_C2 :
    authorityParse "[::]".data = .error .IllegalIPv6 ∧
    parseHost "[::G]".data = .ok "[::G]".data ∧
    authorityParse "[V7.abc]".data = .error .IllegalIPv6 ∧
    isValidIpVFuture "V7.abc".data = true := by
  decide

/-- C4 counterexample: with `C = ALPHA` and `s = "\n"` (a single character
≤ 0x7F), `Encode` produces the space-padded `"% A"`, which `Decode`
rejects, so `Decode(Encode(s, C), C) ≠ Ok(s)`; and with the class `{%}`
and `s = "%"`, `Encode` emits `%` verbatim (it is in the class) and
`Decode` then reads it as a truncated escape, so the law also fails for a
class containing `%`. -/
theorem claim_C4_counterexample :
    encode [Char.ofNat 10] inALPHA = .ok ['%', ' ', 'A'] ∧
    (encode [Char.ofNat 10] inALPHA).bind (decode · inALPHA) =
      .error .IllegalPercentEncoding ∧
    (encode [Char.ofNat 10] inALPHA).bind (decode · inALPHA) ≠
      .ok [Char.ofNat 10] ∧
    (encode ['%'] (fun c => c == '%')).bind (decode · (fun c => c == '%')) =
      .error .IllegalPercentEncoding := by
  decide

/-- C5 counterexample: `"::aaaaa"` contains a group of five (more than
four) consecutive hex digits, yet the validator accepts it — the source
tests `char_counter > 4` before incrementing, so only groups of six or
more are rejected. -/
theorem claim_C5_counterexample :
    isValidIpV6 (':' :: ':' :: "aaaaa".data) = true ∧
    4 < "aaaaa".data.length ∧
    (∀ c ∈ "aaaaa".data, inHEXDIG c = true) := by
  decide

/-- C6 counterexample: on `"a@b@c"` the userinfo/rest split falls at the
FIRST `@` (`split_once`), not the last. -/
theorem claim_C6_counterexample :
    splitUserinfo "a@b@c".data = (some "a".data, some "b@c".data) ∧
    splitUserinfo "a@b@c".data ≠ (some "a@b".data, some "c".data) := by
  decide

/-- C8 counterexample: the port substring `"+80"` has a sign character,
yet `Authority::parse("example.com:+80")` succeeds with port 80
(Rust `u16::from_str` accepts a leading `+`). -/
theorem claim_C8_counterexample :
    parsePort "+80".data = .ok 80 ∧
    authorityParse "example.com:+80".data =
      .ok (some ⟨none, some "example.com".data, some 80⟩) := by
  decide

/-- C10 counterexample: `"[::]]"` is accepted — its closing `]` (the first
one) is followed by a further character and no `:` — and the whole string
is stored as the host, but that host DOES end with `]`, contradicting the
claim's "does not end with ']'". -/
theorem claim_C10_counterexample :
    authorityParse "[::]]".data = .ok (some ⟨none, some "[::]]".data, none⟩) ∧
    "[::]]".data.getLast? = some ']' := by
  decide

/-! ## `split_once` characterization -/

theorem splitOnce_of_not_mem {sep : Char} :
    ∀ {l : List Char}, sep ∉ l → splitOnce sep l = none := by
  intro l
  induction l with
  | nil => intro _; rfl
  | cons x xs ih =>
    intro h
    have hx : ¬ (x = sep) := fun hh => h (hh ▸ List.mem_cons_self x xs)
    have hxs : sep ∉ xs := fun hh => h (List.mem_cons_of_mem x hh)
    simp [splitOnce, hx, ih hxs]

theorem splitOnce_of_split {sep : Char} :
    ∀ {a : List Char} (b : List Char), sep ∉ a →
      splitOnce sep (a ++ sep :: b) = some (a, b) := by
  intro a
  induction a with
  | nil => intro b _; simp [splitOnce]
  | cons x xs ih =>
    intro b h
    have hx : ¬ (x = sep) := fun hh => h (hh ▸ List.mem_cons_self x xs)
    have hxs : sep ∉ xs := fun hh => h (List.mem_cons_of_mem x hh)
    simp [splitOnce, hx, ih b hxs]

/-- C6 (amended): `Authority::split_userinfo` splits at the FIRST `@` (the
source uses `split_once('@')`), not the last: with no `@` the whole string
is the host:port part; writing the input as `a ++ "@" ++ b` with no `@` in
`a`, the userinfo part is `a` and the rest is `b`, each collapsed to `None`
when empty. -/
theorem claim_C6 (l : List Char) :
    ('@' ∉ l → splitUserinfo l = (none, some l)) ∧
    (∀ a b, l = a ++ '@' :: b → '@' ∉ a →
      splitUserinfo l =
        ((if a = [] then none else some a), (if b = [] then none else some b))) := by
  constructor
  · intro h
    simp [splitUserinfo, splitOnce_of_not_mem h]
  · intro a b hl ha
    subst hl
    rw [splitUserinfo, splitOnce_of_split b ha]
    match a, b with
    | [], [] => rfl
    | [], r :: rs => rfl
    | i :: is, [] => rfl
    | i :: is, r :: rs => rfl

/-- Witness for C6 at `"a@b@c"`: userinfo `"a"`, rest `"b@c"` (the split is
at the first `@`). -/
theorem claim_C6_witness :
    splitUserinfo "a@b@c".data = (some "a".data, some "b@c".data) := by
  have := (claim_C6 "a@b@c".data).2 "a".data "b@c".data (by decide) (by decide)
  simpa using this

/-- C10 (amended): `"[::1]x"` — a closing `]` followed by further
characters and no port `:` — is accepted and the ENTIRE string is the
stored host; in general, when the host:port part opens with `[`, has its
first `]` at index `i` and no `:` after it, the whole string becomes the
host-part, and `parse_host` returns every accepted `[`-opened host
verbatim, never inspecting its end (so the host starts with `[` but need
not end with `]`). -/
theorem claim_C10 :
    authorityParse "[::1]x".data = .ok (some ⟨none, some "[::1]x".data, none⟩) ∧
    (∀ (l : List Char) (i : Nat), l.head? = some '[' → findChar ']' l = some i →
      findChar ':' (l.drop (i + 1)) = none → splitHost l = .ok (some l, none)) ∧
    (∀ (h v : List Char), h.head? = some '[' → parseHost h = .ok v → v = h) := by
  refine ⟨by decide, ?_, ?_⟩
  · intro l i hhead hfind hcolon
    rw [splitHost, hhead]
    simp [hfind, hcolon]
  · intro h v hhead hp
    rw [parseHost, hhead] at hp
    simp only [if_pos rfl] at hp
    simp only [Bool.and_not_self, Bool.not_true, Bool.false_and, Bool.or_self,
      if_false, Bool.and_self, if_true] at hp
    by_cases hlen : h.length < 4
    · simp [hlen] at hp
    · simp only [hlen, if_false] at hp
      by_cases hv : ((h.take (h.length - 2)).drop 1).head? = some 'v'
      · simp only [hv, if_pos rfl] at hp
        by_cases hval : isValidIpVFuture ((h.take (h.length - 2)).drop 1) = true
        · rw [if_pos hval] at hp
          cases hp
          rfl
        · rw [if_neg hval] at hp
          cases hp
      · simp only [hv, if_neg] at hp
        by_cases hval : isValidIpV6 ((h.take (h.length - 2)).drop 1) = true
        · rw [if_pos hval] at hp
          cases hp
          rfl
        · rw [if_neg hval] at hp
          cases hp

/-- Witness for C10's universal parts at `"[::1]x"`: the whole string is
the host-part of the split, and `parse_host` hands it back verbatim. -/
theorem claim_C10_witness :
    splitHost "[::1]x".data = .ok (some "[::1]x".data, none) ∧
    "[::1]x".data = "[::1]x".data := by
  refine ⟨(claim_C10.2.1 "[::1]x".data 4 (by decide) (by decide) (by decide)), ?_⟩
  exact (claim_C10.2.2 "[::1]x".data "[::1]x".data (by decide) (by decide)).symm

/-! ## Port parsing characterization (C8) -/

theorem digitsValFrom_ge : ∀ (l : List Char) (acc : Nat), acc ≤ digitsValFrom acc l := by
  intro l
  induction l with
  | nil => intro acc; exact Nat.le_refl acc
  | cons c rest ih =>
    intro acc
    calc acc ≤ acc * 10 + (c.toNat - '0'.toNat) := by omega
    _ ≤ digitsValFrom (acc * 10 + (c.toNat - '0'.toNat)) rest := ih _

theorem digitVal?_eq_some {c : Char} {d : Nat} :
    digitVal? c = some d ↔ inDIGIT c = true ∧ d = c.toNat - '0'.toNat := by
  unfold digitVal? inDIGIT
  by_cases h : ('0' ≤ c && c ≤ '9') = true <;> simp [h]
  exact comm

theorem parseU16Loop_char {l : List Char} {acc n : Nat} (hacc : acc ≤ 65535) :
    parseU16Loop l acc = some n ↔
      ((∀ c ∈ l, inDIGIT c = true) ∧ n = digitsValFrom acc l ∧ n ≤ 65535) := by
  induction l generalizing acc with
  | nil =>
    constructor
    · intro h
      have hn : acc = n := Option.some.inj h
      subst hn
      exact ⟨fun c hc => absurd hc (List.not_mem_nil c), rfl, hacc⟩
    · rintro ⟨_, hn, _⟩
      rw [hn]
      rfl
  | cons c rest ih =>
    rw [parseU16Loop]
    rcases hd : digitVal? c with _ | d
    · constructor
      · intro h; cases h
      · rintro ⟨hall, _, _⟩
        have := (digitVal?_eq_some (d := c.toNat - '0'.toNat)).mpr
          ⟨hall c (List.mem_cons_self c rest), rfl⟩
        rw [hd] at this
        cases this
    · have hdd := digitVal?_eq_some.mp hd
      by_cases hover : acc * 10 + d > 65535
      · simp only [hover, if_true]
        constructor
        · intro h; cases h
        · rintro ⟨hall, hn, hle⟩
          have heq : digitsValFrom acc (c :: rest) =
              digitsValFrom (acc * 10 + (c.toNat - '0'.toNat)) rest := rfl
          rw [heq] at hn
          have hge := digitsValFrom_ge rest (acc * 10 + (c.toNat - '0'.toNat))
          rw [hdd.2] at hover
          omega
      · simp only [hover, if_false]
        rw [ih (by omega)]
        constructor
        · rintro ⟨hall, hn, hle⟩
          refine ⟨?_, ?_, hle⟩
          · intro x hx
            rcases List.mem_cons.mp hx with hx | hx
            · exact hx ▸ hdd.1
            · exact hall x hx
          · rw [hn, hdd.2]
            rfl
        · rintro ⟨hall, hn, hle⟩
          refine ⟨fun x hx => hall x (List.mem_cons_of_mem c hx), ?_, hle⟩
          rw [hn, hdd.2]
          rfl

/-- C8 (amended): a port substring parses successfully exactly when it is
one or more decimal digits, OPTIONALLY preceded by a single `+` sign
(Rust's `u16::from_str` accepts a leading `+`), whose value is at most
65535; the parsed port is that value.  Everything else — a `-` sign,
percent-encoding, non-digits, overflow — is `ParsePortError`. -/
theorem claim_C8 (l : List Char) (n : Nat) :
    parsePort l = .ok n ↔
      (∃ ds, (l = ds ∨ l = '+' :: ds) ∧ ds ≠ [] ∧
        (∀ c ∈ ds, inDIGIT c = true) ∧ digitsVal ds = n ∧ n ≤ 65535) := by
  have hloop : ∀ (ds : List Char) (m : Nat), parseU16Loop ds 0 = some m ↔
      ((∀ c ∈ ds, inDIGIT c = true) ∧ m = digitsVal ds ∧ m ≤ 65535) :=
    fun ds m => parseU16Loop_char (by omega)
  constructor
  · intro h
    rw [parsePort] at h
    rcases hu : parseU16? l with _ | m
    · rw [hu] at h; cases h
    · rw [hu] at h
      cases h
      cases l with
      | nil => cases hu
      | cons c cs =>
        by_cases hplus : c = '+'
        · subst hplus
          cases cs with
          | nil => cases hu
          | cons r rs =>
            have : parseU16? ('+' :: r :: rs) = parseU16Loop (r :: rs) 0 := rfl
            rw [this] at hu
            obtain ⟨hall, hv, hle⟩ := (hloop (r :: rs) n).mp hu
            exact ⟨r :: rs, Or.inr rfl, by simp, hall, hv.symm, hle⟩
        · by_cases hminus : c = '-'
          · subst hminus
            cases hu
          · rw [parseU16?.eq_5 (c :: cs) (by simp)
                (by intro rest hr; injection hr with h1 _; exact hplus h1)
                (by intro rest hr; injection hr with h1 _; exact hminus h1)] at hu
            obtain ⟨hall, hv, hle⟩ := (hloop (c :: cs) n).mp hu
            exact ⟨c :: cs, Or.inl rfl, by simp, hall, hv.symm, hle⟩
  · rintro ⟨ds, hl, hne, hall, hval, hle⟩
    have hl2 : parseU16Loop ds 0 = some n := (hloop ds n).mpr ⟨hall, hval.symm, hle⟩
    rcases hl with rfl | rfl
    · cases l with
      | nil => exact absurd rfl hne
      | cons c cs =>
        have hplus : ¬ (c = '+') := by
          intro hh
          have hd := hall c (List.mem_cons_self c cs)
          rw [hh] at hd
          cases hd
        have hminus : ¬ (c = '-') := by
          intro hh
          have hd := hall c (List.mem_cons_self c cs)
          rw [hh] at hd
          cases hd
        rw [parsePort, parseU16?.eq_5 (c :: cs) (by simp)
          (by intro rest hr; injection hr with h1 _; exact hplus h1)
          (by intro rest hr; injection hr with h1 _; exact hminus h1), hl2]
    · cases ds with
      | nil => exact absurd rfl hne
      | cons c cs =>
        have : parseU16? ('+' :: c :: cs) = parseU16Loop (c :: cs) 0 := rfl
        rw [parsePort, this, hl2]

/-- Witness for C8 at `"+80"` and `"80"`: both parse to port 80. -/
theorem claim_C8_witness :
    parsePort ('+' :: "80".data) = .ok 80 ∧ parsePort "80".data = .ok 80 := by
  constructor
  · exact (claim_C8 ('+' :: "80".data) 80).mpr
      ⟨"80".data, Or.inr rfl, by decide, by decide, by decide, by decide⟩
  · exact (claim_C8 "80".data 80).mpr
      ⟨"80".data, Or.inl rfl, by decide, by decide, by decide, by decide⟩

/-! ## IPv6 scan lemmas (C5) -/

theorem ipv6Loop_append : ∀ (a : List Char) (st : IPv6St) (b : List Char),
    ipv6Loop st (a ++ b) = (ipv6Loop st a).bind (fun st' => ipv6Loop st' b) := by
  intro a
  induction a with
  | nil => intro st b; rfl
  | cons c t ih =>
    intro st b
    by_cases hc : c = ':'
    · simp only [List.cons_append, ipv6Loop, hc, if_pos rfl]
      by_cases h7 : st.colonCounter ≥ 7
      · simp [h7]
      · simp only [h7, if_false]
        by_cases hcol : st.colon
        · simp only [hcol, if_true]
          by_cases hdc : st.hadDoubleColon
          · simp [hdc]
          · simp only [hdc, if_false]
            exact ih _ b
        · simp only [hcol, if_false]
          exact ih _ b
    · simp only [List.cons_append, ipv6Loop, if_neg hc]
      by_cases hcc : st.charCounter > 4
      · simp [hcc]
      · simp only [hcc, if_false]
        by_cases hhex : inHEXDIG c
        · simp only [hhex, Bool.not_true, Bool.false_eq_true, if_false]
          exact ih _ b
        · simp only [Bool.not_eq_true] at hhex
          simp [hhex]

theorem ipv6Loop_count : ∀ {l : List Char} {st st' : IPv6St},
    ipv6Loop st l = some st' →
      st'.colonCounter = st.colonCounter + l.count ':' ∧
      st'.colonCounter ≤ max st.colonCounter 7 := by
  intro l
  induction l with
  | nil =>
    intro st st' h
    cases h
    exact ⟨by simp, Nat.le_max_left _ _⟩
  | cons c t ih =>
    intro st st' h
    by_cases hc : c = ':'
    · rw [ipv6Loop, if_pos hc] at h
      by_cases h7 : st.colonCounter ≥ 7
      · rw [if_pos h7] at h; cases h
      · rw [if_neg h7] at h
        by_cases hcol : st.colon
        · rw [if_pos hcol] at h
          by_cases hdc : st.hadDoubleColon
          · rw [if_pos hdc] at h; cases h
          · rw [if_neg hdc] at h
            obtain ⟨hcnt, hb⟩ := ih h
            constructor
            · rw [hcnt]
              subst hc
              simp [List.count_cons]
              omega
            · simp only [] at hb
              omega
        · rw [if_neg hcol] at h
          obtain ⟨hcnt, hb⟩ := ih h
          constructor
          · rw [hcnt]
            subst hc
            simp [List.count_cons]
            omega
          · simp only [] at hb
            omega
    · rw [ipv6Loop, if_neg hc] at h
      by_cases hcc : st.charCounter > 4
      · rw [if_pos hcc] at h; cases h
      · rw [if_neg hcc] at h
        by_cases hhex : inHEXDIG c
        · rw [hhex] at h
          simp only [Bool.not_true, Bool.false_eq_true, if_false] at h
          obtain ⟨hcnt, hb⟩ := ih h
          constructor
          · rw [hcnt]
            have : (c :: t).count ':' = t.count ':' := by
              simp [List.count_cons, hc]
            rw [this]
          · exact hb
        · simp only [Bool.not_eq_true] at hhex
          rw [hhex] at h
          simp at h

theorem ipv6Loop_had_mono : ∀ {l : List Char} {st st' : IPv6St},
    ipv6Loop st l = some st' → st.hadDoubleColon = true →
      st'.hadDoubleColon = true := by
  intro l
  induction l with
  | nil => intro st st' h hdc; cases h; exact hdc
  | cons c t ih =>
    intro st st' h hdc
    by_cases hc : c = ':'
    · rw [ipv6Loop, if_pos hc] at h
      by_cases h7 : st.colonCounter ≥ 7
      · rw [if_pos h7] at h; cases h
      · rw [if_neg h7] at h
        by_cases hcol : st.colon
        · rw [if_pos hcol, if_pos hdc] at h
          cases h
        · rw [if_neg hcol] at h
          exact ih h hdc
    · rw [ipv6Loop, if_neg hc] at h
      by_cases hcc : st.charCounter > 4
      · rw [if_pos hcc] at h; cases h
      · rw [if_neg hcc] at h
        by_cases hhex : inHEXDIG c
        · rw [hhex] at h
          simp only [Bool.not_true, Bool.false_eq_true, if_false] at h
          exact ih h hdc
        · simp only [Bool.not_eq_true] at hhex
          rw [hhex] at h
          simp at h

/-- With the double-colon flag already set, a second `::` kills the scan. -/
theorem ipv6Loop_dc_dead {st : IPv6St} (hdc : st.hadDoubleColon = true)
    (l : List Char) : ipv6Loop st (':' :: ':' :: l) = none := by
  by_cases h7 : st.colonCounter ≥ 7 <;>
    by_cases hcol : st.colon <;>
      by_cases h7b : st.colonCounter + 1 ≥ 7 <;>
        simp [ipv6Loop, h7, hcol, h7b, hdc]

/-- Surviving a `::` leaves the double-colon flag set. -/
theorem ipv6Loop_dc : ∀ {l : List Char} {st st' : IPv6St},
    ipv6Loop st (':' :: ':' :: l) = some st' → st'.hadDoubleColon = true := by
  intro l st st' h
  by_cases hdc : st.hadDoubleColon = true
  · rw [ipv6Loop_dc_dead hdc l] at h
    cases h
  · simp only [Bool.not_eq_true] at hdc
    by_cases h7 : st.colonCounter ≥ 7 <;>
      by_cases hcol : st.colon <;>
        by_cases h7b : st.colonCounter + 1 ≥ 7 <;>
          simp only [ipv6Loop, h7, hcol, h7b, hdc, if_pos rfl, if_true, if_false,
            Bool.false_eq_true, ite_true, ite_false] at h <;>
          first
            | cases h
            | exact ipv6Loop_had_mono h rfl

/-- Surviving a run of hex digits adds its length to the per-group
counter, which never exceeds 5. -/
theorem ipv6Loop_hex_count : ∀ {ds : List Char} {st st' : IPv6St},
    (∀ x ∈ ds, inHEXDIG x = true) → ipv6Loop st ds = some st' →
      st'.charCounter = st.charCounter + ds.length ∧
      (ds ≠ [] → st'.charCounter ≤ 5) := by
  intro ds
  induction ds with
  | nil =>
    intro st st' _ h
    cases h
    exact ⟨by simp, fun hh => absurd rfl hh⟩
  | cons c t ih =>
    intro st st' hall h
    have hhex : inHEXDIG c = true := hall c (List.mem_cons_self c t)
    have hc : ¬ (c = ':') := by
      intro hh
      rw [hh] at hhex
      cases hhex
    rw [ipv6Loop, if_neg hc] at h
    by_cases hcc : st.charCounter > 4
    · rw [if_pos hcc] at h; cases h
    · rw [if_neg hcc] at h
      rw [hhex] at h
      simp only [Bool.not_true, Bool.false_eq_true, if_false] at h
      obtain ⟨hcnt, hb⟩ := ih (fun x hx => hall x (List.mem_cons_of_mem c hx)) h
      constructor
      · rw [hcnt]
        simp only [List.length_cons]
        omega
      · intro _
        cases t with
        | nil =>
          cases h
          simp only []
          omega
        | cons r rs => exact hb (by simp)

/-- C5 (amended): the IPv6 validator returns false for every literal with
two separate `::` occurrences, every literal with more than 7 colons, and
every literal containing SIX or more consecutive hex digits; groups of
five hex digits are ACCEPTED (the source tests `char_counter > 4` before
incrementing, so the claimed more-than-four bound is off by one — see the
counterexample `"::aaaaa"`).  It returns true on `"::"`, `"::FFFF"` and
`"2001:db8:3333:4444:5555:6666:7777:8888"`. -/
theorem claim_C5 :
    (∀ a b c : List Char,
      isValidIpV6 (a ++ ':' :: ':' :: (b ++ ':' :: ':' :: c)) = false) ∧
    (∀ l : List Char, 7 < l.count ':' → isValidIpV6 l = false) ∧
    (∀ a ds c : List Char, ds.length = 6 → (∀ x ∈ ds, inHEXDIG x = true) →
      isValidIpV6 (a ++ (ds ++ c)) = false) ∧
    isValidIpV6 (':' :: ':' :: []) = true ∧
    isValidIpV6 "::FFFF".data = true ∧
    isValidIpV6 "2001:db8:3333:4444:5555:6666:7777:8888".data = true := by
  refine ⟨?_, ?_, ?_, by decide, by decide, by decide⟩
  · intro a b c
    have hne : a ++ ':' :: ':' :: (b ++ ':' :: ':' :: c) ≠ [] := by simp
    rw [isValidIpV6, if_neg hne, ipv6Loop_append]
    cases hres : ipv6Loop ⟨false, 0, 0, false⟩ a with
    | none => rfl
    | some st1 =>
      simp only [Option.some_bind]
      have hsplit : (':' :: ':' :: (b ++ ':' :: ':' :: c)) =
          [':', ':'] ++ (b ++ ':' :: ':' :: c) := rfl
      rw [hsplit, ipv6Loop_append]
      cases hres2 : ipv6Loop st1 [':', ':'] with
      | none => rfl
      | some st2 =>
        simp only [Option.some_bind]
        have hdc2 : st2.hadDoubleColon = true := ipv6Loop_dc hres2
        rw [ipv6Loop_append]
        cases hres3 : ipv6Loop st2 b with
        | none => rfl
        | some st3 =>
          simp only [Option.some_bind]
          have hdc3 := ipv6Loop_had_mono hres3 hdc2
          rw [ipv6Loop_dc_dead hdc3 c]
  · intro l hcnt
    have hne : l ≠ [] := by
      intro hh
      rw [hh] at hcnt
      simp at hcnt
    rw [isValidIpV6, if_neg hne]
    cases hres : ipv6Loop ⟨false, 0, 0, false⟩ l with
    | none => rfl
    | some st' =>
      obtain ⟨hc, hb⟩ := ipv6Loop_count hres
      simp only [] at hc hb
      omega
  · intro a ds c hlen hall
    have hne : a ++ (ds ++ c) ≠ [] := by
      cases a <;> cases ds <;> simp_all
    rw [isValidIpV6, if_neg hne, ipv6Loop_append]
    cases hres : ipv6Loop ⟨false, 0, 0, false⟩ a with
    | none => rfl
    | some st1 =>
      simp only [Option.some_bind]
      rw [ipv6Loop_append]
      cases hres2 : ipv6Loop st1 ds with
      | none => rfl
      | some st2 =>
        obtain ⟨hc, hb⟩ := ipv6Loop_hex_count hall hres2
        have hne2 : ds ≠ [] := by
          intro hh
          rw [hh] at hlen
          cases hlen
        have := hb hne2
        omega

/-- Witness for C5's universal parts at concrete literals: `"::a::"` (two
separate `::`), eight bare colons (more than 7), and `"::aaaaaa"` (a group
of six hex digits) are all rejected. -/
theorem claim_C5_witness :
    isValidIpV6 "::a::".data = false ∧
    isValidIpV6 "::::::::".data = false ∧
    isValidIpV6 "::aaaaaa".data = false := by
  refine ⟨?_, ?_, ?_⟩
  · have := claim_C5.1 [] ['a'] []
    simpa using this
  · exact claim_C5.2.1 "::::::::".data (by decide)
  · have := claim_C5.2.2.1 [':', ':'] "aaaaaa".data [] (by decide) (by decide)
    simpa using this

/-! ## Encode/decode inverse law (C4) -/

theorem char_ofNat_toNat {c : Char} (h : c.toNat ≤ 127) : Char.ofNat c.toNat = c :=
  char_eq_of_toNat (toNat_ofNat_valid (by omega))

/-- The uppercase hex digit of `n ≤ 15` is a HEXDIG and decodes back to
`n` under `to_digit(16)`. -/
theorem hexDigitUpper_spec {n : Nat} (h : n ≤ 15) :
    inHEXDIG (hexDigitUpper n) = true ∧ hexVal? (hexDigitUpper n) = some n := by
  have h0 : '0'.toNat = 48 := rfl
  have h9 : '9'.toNat = 57 := rfl
  have ha : 'a'.toNat = 97 := rfl
  have hA : 'A'.toNat = 65 := rfl
  have hF : 'F'.toNat = 70 := rfl
  by_cases h10 : n < 10
  · have htn : (hexDigitUpper n).toNat = 48 + n := by
      rw [hexDigitUpper, if_pos h10, h0]
      exact toNat_ofNat_valid (by omega)
    have hge : '0' ≤ hexDigitUpper n := char_le_iff.mpr (by omega)
    have hle : hexDigitUpper n ≤ '9' := char_le_iff.mpr (by omega)
    constructor
    · simp [inHEXDIG, inDIGIT, hge, hle]
    · rw [hexVal?, if_pos (by simp [hge, hle])]
      congr 1
      omega
  · have htn : (hexDigitUpper n).toNat = 55 + n := by
      rw [hexDigitUpper, if_neg h10, hA]
      rw [toNat_ofNat_valid (by omega)]
      omega
    have hge : 'A' ≤ hexDigitUpper n := char_le_iff.mpr (by omega)
    have hle : hexDigitUpper n ≤ 'F' := char_le_iff.mpr (by omega)
    have hnot9 : ¬ (hexDigitUpper n ≤ '9') := by
      intro hh
      have := char_le_iff.mp hh
      omega
    have hnota : ¬ ('a' ≤ hexDigitUpper n) := by
      intro hh
      have := char_le_iff.mp hh
      omega
    constructor
    · simp [inHEXDIG, inDIGIT, hge, hle, hnot9, hnota]
    · rw [hexVal?, if_neg (by simp [hnot9]), if_pos (by simp [hge, hle])]
      congr 1
      omega

/-- Encoding then decoding is the identity, provided `%` is not in the
class and every character outside the class has a code point in
`[0x10, 0x7F]` (below 0x10 the space-padding bug of `{:2X}` breaks the
round trip). -/
theorem encode_decode_aux {v : Char → Bool} (hpct : v '%' = false) :
    ∀ {l : List Char}, (∀ c ∈ l, c.toNat ≤ 127) →
      (∀ c ∈ l, v c = false → 16 ≤ c.toNat) →
      ∃ e, encode l v = .ok e ∧ decode e v = .ok l := by
  intro l
  induction l with
  | nil => exact fun _ _ => ⟨[], rfl, rfl⟩
  | cons c rest ih =>
    intro hascii hlow
    obtain ⟨e, he, hd⟩ := ih (fun x hx => hascii x (List.mem_cons_of_mem c hx))
      (fun x hx => hlow x (List.mem_cons_of_mem c hx))
    rw [decode] at hd
    by_cases hv : v c
    · refine ⟨c :: e, ?_, ?_⟩
      · rw [encode]
        simp only [encodeLoop, hv, if_true]
        rw [encodeLoop_append v rest ([] ++ [c])]
        rw [encode] at he
        rw [he]
        rfl
      · have hc : ¬ (c = '%') := by
          intro hh
          rw [hh, hpct] at hv
          cases hv
        rw [decode]
        conv_lhs => rw [decodeLoop.eq_def]
        simp only [if_neg hc, hv, if_true]
        rw [decodeLoop_append v e ([] ++ [c]), hd]
        rfl
    · have hv' : v c = false := by
        rcases Bool.eq_false_or_eq_true (v c) with hh | hh
        · exact absurd hh hv
        · exact hh
      have h16 := hlow c (List.mem_cons_self c rest) hv'
      have h127 := hascii c (List.mem_cons_self c rest)
      have hdec : c.toNat % 256 = c.toNat := Nat.mod_eq_of_lt (by omega)
      have hq := hexDigitUpper_spec (n := c.toNat / 16) (by omega)
      have hr := hexDigitUpper_spec (n := c.toNat % 16) (by omega)
      have hfmt : format2X c.toNat =
          [hexDigitUpper (c.toNat / 16), hexDigitUpper (c.toNat % 16)] := by
        rw [format2X, if_neg (by omega)]
      refine ⟨'%' :: hexDigitUpper (c.toNat / 16) :: hexDigitUpper (c.toNat % 16) :: e,
        ?_, ?_⟩
      · rw [encode]
        simp only [encodeLoop, hv', Bool.false_eq_true, if_false, hdec]
        have hno : ¬ (c.toNat > 127) := by omega
        simp only [hno, if_false]
        rw [hfmt]
        have hh1 : [hexDigitUpper (c.toNat / 16), hexDigitUpper (c.toNat % 16)].head? =
            some (hexDigitUpper (c.toNat / 16)) := rfl
        have hh2 : [hexDigitUpper (c.toNat / 16), hexDigitUpper (c.toNat % 16)].getLast? =
            some (hexDigitUpper (c.toNat % 16)) := rfl
        rw [hh1, hh2]
        show encodeLoop v rest
          ([] ++ ['%', hexDigitUpper (c.toNat / 16), hexDigitUpper (c.toNat % 16)]) = _
        rw [encodeLoop_append v rest
          ([] ++ ['%', hexDigitUpper (c.toNat / 16), hexDigitUpper (c.toNat % 16)])]
        rw [encode] at he
        rw [he]
        rfl
      · rw [decode]
        conv_lhs => rw [decodeLoop.eq_def]
        simp only [if_pos rfl]
        rw [hq.1]
        simp only [Bool.and_self, if_true]
        rw [hq.2, hr.2]
        have hle7 : ¬ (c.toNat / 16 > 7) := by omega
        simp only [hle7, if_false]
        have hch : Char.ofNat (c.toNat / 16 * 16 + c.toNat % 16) = c := by
          have : c.toNat / 16 * 16 + c.toNat % 16 = c.toNat := by omega
          rw [this]
          exact char_ofNat_toNat h127
        rw [hch, decodeLoop_append v e ([] ++ [c]), hd]
        rfl

/-- C4 (amended): for every class `C` that does not contain `%` and every
string `s` of characters ≤ 0x7F in which every character OUTSIDE `C` has a
code point of at least 0x10, `Decode(Encode(s, C), C) = Ok(s)`.  (The two
side conditions are forced by the counterexamples: a class containing `%`
re-interprets the encoder's verbatim `%` as an escape, and characters
below 0x10 are encoded with the space-padded `"% X"` form that the decoder
rejects.) -/
theorem claim_C4 (viable : Char → Bool) (l : List Char)
    (hpct : viable '%' = false)
    (hascii : ∀ c ∈ l, c.toNat ≤ 127)
    (hlow : ∀ c ∈ l, viable c = false → 16 ≤ c.toNat) :
    (encode l viable).bind (fun e => decode e viable) = .ok l := by
  obtain ⟨e, he, hd⟩ := encode_decode_aux hpct hascii hlow
  rw [he]
  exact hd

/-- Witness for C4 at `s = "ab "` against ALPHA: the space is encoded to
`"%20"` and decoded back. -/
theorem claim_C4_witness :
    (encode "ab ".data inALPHA).bind (fun e => decode e inALPHA) = .ok "ab ".data :=
  claim_C4 inALPHA "ab ".data (by decide) (by decide) (by decide)

/-! ## Monadic inversion helpers -/

theorem ebind_ok_iff {α β : Type} {x : Except Error α} {f : α → Except Error β}
    {b : β} : Except.bind x f = .ok b ↔ ∃ a, x = .ok a ∧ f a = .ok b := by
  cases x with
  | error e =>
    constructor
    · intro h; cases h
    · rintro ⟨a, ha, _⟩; cases ha
  | ok a =>
    constructor
    · intro h; exact ⟨a, rfl, h⟩
    · rintro ⟨a', ha, hf⟩
      cases ha
      exact hf

theorem map_some_ok {x : Except Error (List Char)} {r : Option (List Char)}
    (h : Except.map some x = .ok r) : ∃ y, x = .ok y ∧ r = some y := by
  cases x with
  | error e => cases h
  | ok y => exact ⟨y, rfl, (Except.ok.inj h).symm⟩

theorem map_some_ok_nat {x : Except Error Nat} {r : Option Nat}
    (h : Except.map some x = .ok r) : ∃ y, x = .ok y ∧ r = some y := by
  cases x with
  | error e => cases h
  | ok y => exact ⟨y, rfl, (Except.ok.inj h).symm⟩

/-! ## Components produced by parsing are 7-bit (C9) -/

theorem decode_ascii {l out : List Char} {v : Char → Bool}
    (hv : ∀ c, v c = true → c.toNat ≤ 127) (h : decode l v = .ok out) :
    ∀ c ∈ out, c.toNat ≤ 127 :=
  decodeLoop_ascii hv l [] out h (by intro c hc; cases hc)

theorem lowerChar_ascii {c : Char} (h : c.toNat ≤ 127) : (lowerChar c).toNat ≤ 127 := by
  rw [lowerChar]
  by_cases hc : ('A' ≤ c && c ≤ 'Z') = true
  · rw [if_pos hc]
    have hZ : 'Z'.toNat = 90 := rfl
    have := char_le_iff.mp (of_decide_eq_true (Bool.and_elim_right hc))
    rw [toNat_ofNat_valid (by omega)]
    omega
  · rw [if_neg hc]
    exact h

theorem parseScheme_ascii {x r : List Char} (h : parseScheme x = .ok r) :
    ∀ c ∈ r, c.toNat ≤ 127 := by
  rw [parseScheme] at h
  split at h
  · cases h
  · split at h
    · cases h
    · split at h
      · cases h
      · split at h
        · cases h
        · cases h
        · next d hd =>
          have hd' : decode x inSCHEME = .ok d := hd
          have hda := decode_ascii (fun c hc => inSCHEME_ascii hc) hd'
          cases h
          intro c hc
          obtain ⟨y, hy, hyc⟩ := List.mem_map.mp hc
          rw [← hyc]
          exact lowerChar_ascii (hda y hy)

theorem parseUserinfo_ascii {x r : List Char} (h : parseUserinfo x = .ok r) :
    ∀ c ∈ r, c.toNat ≤ 127 := by
  rw [parseUserinfo] at h
  split at h
  · cases h
  · cases h
  · next d hd =>
    cases h
    exact decode_ascii (fun c hc => inUSER_INFO_ascii hc) hd

theorem parsePath_ascii {x r : List Char} (h : parsePath x = .ok r) :
    ∀ c ∈ r, c.toNat ≤ 127 := by
  rw [parsePath.eq_def] at h
  split at h
  · cases h
  · split at h
    · cases h
    · cases h
    · next d hd =>
      cases h
      exact decode_ascii (fun c hc => inPATH_ascii hc) hd

theorem parseQuery_ascii {x r : List Char} (h : parseQuery x = .ok r) :
    ∀ c ∈ r, c.toNat ≤ 127 := by
  rw [parseQuery] at h
  split at h
  · cases h
  · cases h
  · next d hd =>
    cases h
    exact decode_ascii (fun c hc => inQUERY_ascii hc) hd

theorem parseFragment_ascii {x r : List Char} (h : parseFragment x = .ok r) :
    ∀ c ∈ r, c.toNat ≤ 127 := by
  rw [parseFragment] at h
  split at h
  · cases h
  · cases h
  · next d hd =>
    cases h
    exact decode_ascii (fun c hc => inFRAGMENT_ascii hc) hd

/-- Every accepted bracketed host is returned verbatim. -/
theorem parseHost_bracket {h v : List Char} (hb : h.head? = some '[')
    (hp : parseHost h = .ok v) : v = h := by
  rw [parseHost, hb] at hp
  simp only [decide_True, Bool.not_true, Bool.and_false, Bool.false_and,
    Bool.or_self, Bool.false_eq_true, if_false, Bool.and_self, if_true] at hp
  split at hp
  · cases hp
  · split at hp
    · split at hp
      · exact (Except.ok.inj hp).symm
      · cases hp
    · split at hp
      · exact (Except.ok.inj hp).symm
      · cases hp

/-- An accepted non-bracketed host is the REG_NAME decoding of the input. -/
theorem parseHost_nonbracket {x v : List Char} (hb : ¬ (x.head? = some '['))
    (hp : parseHost x = .ok v) : decode x inREG_NAME = .ok v := by
  rw [parseHost] at hp
  have hfalse : decide (x.head? = some '[') = false := decide_eq_false hb
  simp only [hfalse, Bool.not_false, Bool.false_and, Bool.and_false,
    Bool.false_or, Bool.or_false, Bool.and_self, Bool.false_eq_true, if_false] at hp
  split at hp
  · cases hp
  · cases hp
  · next r hr =>
    cases hp
    exact hr

theorem parseHost_bracket_or_ascii {x v : List Char} (hp : parseHost x = .ok v) :
    v.head? = some '[' ∨ ∀ c ∈ v, c.toNat ≤ 127 := by
  by_cases hb : x.head? = some '['
  · left
    rw [parseHost_bracket hb hp]
    exact hb
  · right
    exact decode_ascii (fun c hc => inREG_NAME_ascii hc) (parseHost_nonbracket hb hp)

/-- Fields of a parsed Authority: userinfo is 7-bit, and the host is
either a verbatim bracket literal or 7-bit. -/
theorem authorityParse_fields {a : List Char} {auth : Authority}
    (h : authorityParse a = .ok (some auth)) :
    (∀ l, auth.userinfo = some l → ∀ c ∈ l, c.toNat ≤ 127) ∧
    (∀ l, auth.host = some l → l.head? = some '[' ∨ ∀ c ∈ l, c.toNat ≤ 127) := by
  rw [authorityParse] at h
  by_cases hne : a = []
  · rw [if_pos hne] at h
    cases h
  · rw [if_neg hne] at h
    rcases hsu : splitUserinfo a with ⟨ui, rest⟩
    rw [hsu] at h
    obtain ⟨hostPort, hhp, h⟩ := ebind_ok_iff.mp h
    obtain ⟨pu, hpu, h⟩ := ebind_ok_iff.mp h
    obtain ⟨ph, hph, h⟩ := ebind_ok_iff.mp h
    obtain ⟨pp, hpp, h⟩ := ebind_ok_iff.mp h
    have hui : ∀ l, pu = some l → ∀ c ∈ l, c.toNat ≤ 127 := by
      intro l hl
      cases ui with
      | none => cases hpu; cases hl
      | some x =>
        obtain ⟨y, hy, hr⟩ := map_some_ok hpu
        rw [hr] at hl
        cases hl
        exact parseUserinfo_ascii hy
    have hho : ∀ l, ph = some l → l.head? = some '[' ∨ ∀ c ∈ l, c.toNat ≤ 127 := by
      intro l hl
      cases hhost : hostPort.1 with
      | none => rw [hhost] at hph; cases hph; cases hl
      | some x =>
        rw [hhost] at hph
        obtain ⟨y, hy, hr⟩ := map_some_ok hph
        rw [hr] at hl
        cases hl
        exact parseHost_bracket_or_ascii hy
    split at h
    · cases h
    · have heq : some auth = some (⟨pu, ph, pp⟩ : Authority) := (Except.ok.inj h).symm
      cases heq
      exact ⟨hui, hho⟩

/-! ## stringify is total on parsed values (C9) -/

theorem encode_ascii_ok {l : List Char} {v : Char → Bool}
    (h : ∀ c ∈ l, c.toNat ≤ 127) : ∃ r, encode l v = .ok r :=
  encodeLoop_ascii_ok [] h

theorem ebind_ok_exists {α β : Type} {x : Except Error α} {f : α → Except Error β}
    (hx : ∃ a, x = .ok a) (hf : ∀ a, ∃ b, f a = .ok b) :
    ∃ b, Except.bind x f = .ok b := by
  obtain ⟨a, ha⟩ := hx
  obtain ⟨b, hb⟩ := hf a
  exact ⟨b, ebind_ok_iff.mpr ⟨a, ha, hb⟩⟩

theorem authorityStringify_ok {a : Authority}
    (hui : ∀ l, a.userinfo = some l → ∀ c ∈ l, c.toNat ≤ 127)
    (hho : ∀ l, a.host = some l → l.head? = some '[' ∨ ∀ c ∈ l, c.toNat ≤ 127) :
    ∃ r, authorityStringify a = .ok r := by
  rw [authorityStringify]
  by_cases hall : (a.port.isNone && a.host.isNone && a.userinfo.isNone) = true
  · rw [if_pos hall]
    exact ⟨none, rfl⟩
  · rw [if_neg hall]
    apply ebind_ok_exists
    · cases hu : a.userinfo with
      | none => exact ⟨[], rfl⟩
      | some ui =>
        obtain ⟨r, hr⟩ := encode_ascii_ok (v := inUSER_INFO) (hui ui hu)
        exact ⟨r ++ ['@'], ebind_ok_iff.mpr ⟨r, hr, rfl⟩⟩
    · intro o1
      apply ebind_ok_exists
      · cases hh : a.host with
        | none => exact ⟨o1, rfl⟩
        | some ho =>
          rcases hho ho hh with hb | hascii
          · refine ⟨o1 ++ ho, ?_⟩
            show (if ho.head? = some '[' then Except.ok (o1 ++ ho) else _) = _
            rw [if_pos hb]
          · by_cases hb : ho.head? = some '['
            · refine ⟨o1 ++ ho, ?_⟩
              show (if ho.head? = some '[' then Except.ok (o1 ++ ho) else _) = _
              rw [if_pos hb]
            · obtain ⟨r, hr⟩ := encode_ascii_ok (v := inREG_NAME) hascii
              refine ⟨o1 ++ r, ?_⟩
              show (if ho.head? = some '[' then _ else _) = _
              rw [if_neg hb]
              exact ebind_ok_iff.mpr ⟨r, hr, rfl⟩
      · intro o2
        exact ⟨_, rfl⟩

theorem uriStringify_ok {u : Uri}
    (hs : ∀ l, u.scheme = some l → ∀ c ∈ l, c.toNat ≤ 127)
    (ha : ∀ a, u.authority = some a →
      (∀ l, a.userinfo = some l → ∀ c ∈ l, c.toNat ≤ 127) ∧
      (∀ l, a.host = some l → l.head? = some '[' ∨ ∀ c ∈ l, c.toNat ≤ 127))
    (hp : ∀ c ∈ u.path, c.toNat ≤ 127)
    (hq : ∀ l, u.query = some l → ∀ c ∈ l, c.toNat ≤ 127)
    (hf : ∀ l, u.fragment = some l → ∀ c ∈ l, c.toNat ≤ 127) :
    ∃ out, uriStringify u = .ok out := by
  rw [uriStringify]
  apply ebind_ok_exists
  · cases hsch : u.scheme with
    | none => exact ⟨[], rfl⟩
    | some sch =>
      obtain ⟨r, hr⟩ := encode_ascii_ok (v := inSCHEME) (hs sch hsch)
      exact ⟨r ++ [':'], ebind_ok_iff.mpr ⟨r, hr, rfl⟩⟩
  · intro o1
    apply ebind_ok_exists
    · cases hau : u.authority with
      | none => exact ⟨o1, rfl⟩
      | some au =>
        obtain ⟨hui, hho⟩ := ha au hau
        apply ebind_ok_exists (authorityStringify_ok hui hho)
        intro r
        cases r with
        | none => exact ⟨o1, rfl⟩
        | some auStr => exact ⟨o1 ++ '/' :: '/' :: auStr, rfl⟩
    · intro o2
      apply ebind_ok_exists (encode_ascii_ok (v := inPATH) hp)
      intro pe
      apply ebind_ok_exists
      · cases hqu : u.query with
        | none => exact ⟨o2 ++ pe, rfl⟩
        | some qu =>
          obtain ⟨r, hr⟩ := encode_ascii_ok (v := inQUERY) (hq qu hqu)
          exact ⟨o2 ++ pe ++ '?' :: r, ebind_ok_iff.mpr ⟨r, hr, rfl⟩⟩
      · intro o4
        cases hfr : u.fragment with
        | none => exact ⟨o4, rfl⟩
        | some fr =>
          obtain ⟨r, hr⟩ := encode_ascii_ok (v := inFRAGMENT) (hf fr hfr)
          exact ⟨o4 ++ '#' :: r, ebind_ok_iff.mpr ⟨r, hr, rfl⟩⟩

/-- C9: for every input string accepted by `Uri::parse`, `stringify` on
the result returns Ok — the `IllegalCharacter` failure of stringify is
unreachable from parsed values (every parsed field is 7-bit ASCII or a
verbatim bracket host, and the encoder only fails on a character whose
truncated byte exceeds 0x7F). -/
theorem claim_C9 (s : List Char) (u : Uri) (h : uriParse s = .ok u) :
    ∃ out, uriStringify u = .ok out := by
  rw [uriParse] at h
  by_cases hs : s = []
  · rw [if_pos hs] at h
    have hu : u = ⟨none, none, [], none, none⟩ := (Except.ok.inj h).symm
    subst hu
    exact ⟨[], rfl⟩
  · rw [if_neg hs] at h
    obtain ⟨⟨scheme, withoutScheme⟩, hsch, h⟩ := ebind_ok_iff.mp h
    dsimp only at h
    rcases hfrag : splitFragment withoutScheme with ⟨fragment, apq⟩
    rw [hfrag] at h
    dsimp only at h
    rcases hqsp : splitQuery apq with ⟨query, authorityPath⟩
    rw [hqsp] at h
    dsimp only at h
    obtain ⟨⟨authority, path⟩, hap, h⟩ := ebind_ok_iff.mp h
    dsimp only at h
    obtain ⟨psch, hpsch, h⟩ := ebind_ok_iff.mp h
    obtain ⟨pfrag, hpfrag, h⟩ := ebind_ok_iff.mp h
    obtain ⟨pq, hpq, h⟩ := ebind_ok_iff.mp h
    obtain ⟨pp, hpp, h⟩ := ebind_ok_iff.mp h
    obtain ⟨pauth, hpauth, h⟩ := ebind_ok_iff.mp h
    have hu : u = ⟨psch, pauth, pp, pq, pfrag⟩ := (Except.ok.inj h).symm
    subst hu
    apply uriStringify_ok
    · intro l hl
      cases scheme with
      | none => cases hpsch; cases hl
      | some x =>
        obtain ⟨y, hy, hr⟩ := map_some_ok hpsch
        rw [hr] at hl
        cases hl
        exact parseScheme_ascii hy
    · intro a hauth
      have hauth' : pauth = some a := hauth
      rw [hauth'] at hpauth
      cases authority with
      | none => cases hpauth
      | some x => exact authorityParse_fields hpauth
    · exact parsePath_ascii hpp
    · intro l hl
      cases query with
      | none => cases hpq; cases hl
      | some x =>
        obtain ⟨y, hy, hr⟩ := map_some_ok hpq
        rw [hr] at hl
        cases hl
        exact parseQuery_ascii hy
    · intro l hl
      cases fragment with
      | none => cases hpfrag; cases hl
      | some x =>
        obtain ⟨y, hy, hr⟩ := map_some_ok hpfrag
        rw [hr] at hl
        cases hl
        exact parseFragment_ascii hy

/-- Witness for C9 at a concrete accepted URI. -/
theorem claim_C9_witness :
    ∃ out, uriStringify
      (⟨some "http".data,
        some ⟨some "user".data, some "example.com".data, some 8080⟩,
        "/a/b".data, some "q".data, some "f".data⟩ : Uri) = .ok out := by
  refine claim_C9 "http://user@example.com:8080/a/b?q#f".data _ ?_
  decide

/-! ## Reconstruction lemmas for the splitters (C1) -/

theorem findChar_lt {ch : Char} : ∀ {l : List Char} {i : Nat},
    findChar ch l = some i → i < l.length := by
  intro l
  induction l with
  | nil => intro i h; cases h
  | cons x xs ih =>
    intro i h
    rw [findChar] at h
    by_cases hx : x = ch
    · rw [if_pos hx] at h
      cases h
      simp
    · rw [if_neg hx] at h
      rcases hf : findChar ch xs with _ | j
      · rw [hf] at h; cases h
      · rw [hf] at h
        cases h
        have := ih hf
        simp only [List.length_cons]
        omega

theorem findChar_get {ch : Char} : ∀ {l : List Char} {i : Nat},
    findChar ch l = some i → l.get? i = some ch := by
  intro l
  induction l with
  | nil => intro i h; cases h
  | cons x xs ih =>
    intro i h
    rw [findChar] at h
    by_cases hx : x = ch
    · rw [if_pos hx] at h
      cases h
      rw [hx]
      rfl
    · rw [if_neg hx] at h
      rcases hf : findChar ch xs with _ | j
      · rw [hf] at h; cases h
      · rw [hf] at h
        cases h
        exact ih hf

theorem take_get_drop {c : Char} : ∀ {l : List Char} {k : Nat},
    l.get? k = some c → l.take k ++ c :: l.drop (k + 1) = l := by
  intro l
  induction l with
  | nil => intro k h; cases h
  | cons x xs ih =>
    intro k h
    cases k with
    | zero =>
      cases h
      rfl
    | succ k' =>
      have := ih (k := k') h
      simp only [List.take_succ_cons, List.drop_succ_cons, List.cons_append]
      exact congrArg (x :: ·) this

theorem splitOnce_eq_some {sep : Char} : ∀ {l a b : List Char},
    splitOnce sep l = some (a, b) → l = a ++ sep :: b ∧ sep ∉ a := by
  intro l
  induction l with
  | nil => intro a b h; cases h
  | cons x xs ih =>
    intro a b h
    rw [splitOnce] at h
    by_cases hx : x = sep
    · rw [if_pos hx] at h
      cases h
      refine ⟨by rw [hx]; rfl, by intro hh; cases hh⟩
    · rw [if_neg hx] at h
      rcases hs : splitOnce sep xs with _ | ⟨a', b'⟩
      · rw [hs] at h; cases h
      · rw [hs] at h
        cases h
        obtain ⟨hl, hna⟩ := ih hs
        constructor
        · rw [hl]
          rfl
        · intro hh
          rcases List.mem_cons.mp hh with hh | hh
          · exact hx hh.symm
          · exact hna hh

theorem splitOnce_eq_none {sep : Char} : ∀ {l : List Char},
    splitOnce sep l = none → sep ∉ l := by
  intro l
  induction l with
  | nil => intro _ hh; cases hh
  | cons x xs ih =>
    intro h hh
    rw [splitOnce] at h
    by_cases hx : x = sep
    · rw [if_pos hx] at h; cases h
    · rw [if_neg hx] at h
      rcases hs : splitOnce sep xs with _ | p
      · rcases List.mem_cons.mp hh with hh | hh
        · exact hx hh.symm
        · exact ih hs hh
      · rw [hs] at h; cases h

theorem splitScheme_none {s r : List Char} (h : splitScheme s = .ok (none, r)) :
    r = s := by
  rw [splitScheme] at h
  split at h
  · cases h
    rfl
  · split at h
    · cases h
    · simp at h

theorem splitScheme_some {s sch r : List Char}
    (h : splitScheme s = .ok (some sch, r)) : s = sch ++ ':' :: r := by
  rw [splitScheme] at h
  split at h
  · cases h
  · next k hf =>
    split at h
    · cases h
    · simp only [Except.ok.injEq, Prod.mk.injEq, Option.some.injEq] at h
      obtain ⟨hsch, hr⟩ := h
      have hklt : k < (s.take ((findChar '/' s).getD s.length)).length := findChar_lt hf
      have hkl : k < (findChar '/' s).getD s.length := by
        rw [List.length_take] at hklt
        omega
      have hget : s.get? k = some ':' := by
        have := findChar_get hf
        rw [List.get?_take hkl] at this
        exact this
      rw [← hsch, ← hr]
      exact (take_get_drop hget).symm

theorem splitFragment_none {r rest : List Char}
    (h : splitFragment r = (none, rest)) : rest = r := by
  rw [splitFragment] at h
  split at h
  · cases ((Prod.mk.injEq ..).mp h).1
  · exact ((Prod.mk.injEq ..).mp h).2.symm

theorem splitFragment_some {r rest f : List Char}
    (h : splitFragment r = (some f, rest)) : r = rest ++ '#' :: f := by
  rw [splitFragment] at h
  split at h
  · next a b hs =>
    have ha : a = rest := ((Prod.mk.injEq ..).mp h).2
    have hb : b = f := Option.some.inj ((Prod.mk.injEq ..).mp h).1
    rw [rsplitOnce] at hs
    rcases hso : splitOnce '#' r.reverse with _ | ⟨a0, b0⟩
    · rw [hso] at hs; cases hs
    · rw [hso] at hs
      have h1 : b0.reverse = a := ((Prod.mk.injEq ..).mp (Option.some.inj hs)).1
      have h2 : a0.reverse = b := ((Prod.mk.injEq ..).mp (Option.some.inj hs)).2
      have hrec := (splitOnce_eq_some hso).1
      have hr : r.reverse.reverse = (a0 ++ '#' :: b0).reverse := by rw [← hrec]
      rw [List.reverse_reverse, List.reverse_append, List.reverse_cons,
        List.append_assoc] at hr
      rw [hr, h1, h2, ha, hb]
      rfl
  · cases ((Prod.mk.injEq ..).mp h).1

theorem splitQuery_none {r rest : List Char}
    (h : splitQuery r = (none, rest)) : rest = r := by
  rw [splitQuery] at h
  split at h
  · cases ((Prod.mk.injEq ..).mp h).1
  · exact ((Prod.mk.injEq ..).mp h).2.symm

theorem splitQuery_some {r rest q : List Char}
    (h : splitQuery r = (some q, rest)) : r = rest ++ '?' :: q := by
  rw [splitQuery] at h
  split at h
  · next a b hs =>
    have ha : a = rest := ((Prod.mk.injEq ..).mp h).2
    have hb : b = q := Option.some.inj ((Prod.mk.injEq ..).mp h).1
    have := (splitOnce_eq_some hs).1
    rw [ha, hb] at this
    exact this
  · cases ((Prod.mk.injEq ..).mp h).1

theorem splitAuthorityAndPath_none {r p : List Char}
    (h : splitAuthorityAndPath r = .ok (none, p)) : p = r := by
  rw [splitAuthorityAndPath.eq_def] at h
  split at h
  · split at h
    · cases h
    · dsimp only at h
      split at h
      · cases h
      · split at h
        · simp at h
        · simp at h
  · simp only [Except.ok.injEq, Prod.mk.injEq] at h
    exact h.2.symm

theorem splitAuthorityAndPath_some {r a p : List Char}
    (h : splitAuthorityAndPath r = .ok (some a, p)) :
    r = '/' :: '/' :: (a ++ p) := by
  rw [splitAuthorityAndPath.eq_def] at h
  split at h
  · next stripped =>
    split at h
    · cases h
    · dsimp only at h
      split at h
      · cases h
      · split at h
        · simp only [Except.ok.injEq, Prod.mk.injEq, Option.some.injEq] at h
          rw [← h.1, ← h.2, List.append_nil]
        · simp only [Except.ok.injEq, Prod.mk.injEq, Option.some.injEq] at h
          rw [← h.1, ← h.2, List.take_append_drop]
  · simp only [Except.ok.injEq, Prod.mk.injEq] at h
    cases h.1

/-! ## Codec identity on percent-free input and port printing (C1) -/

/-- Decoding a percent-free string is the identity and certifies every
character viable. -/
theorem decode_id {x r : List Char} {v : Char → Bool}
    (hpct : '%' ∉ x) (h : decode x v = .ok r) :
    r = x ∧ ∀ c ∈ x, v c := by
  obtain ⟨hr, hall⟩ := decodeLoop_no_pct_ok hpct h
  exact ⟨by simpa using hr, hall⟩

/-- Encoding an all-viable string is the identity. -/
theorem encode_id {x : List Char} {v : Char → Bool}
    (h : ∀ c ∈ x, v c) : encode x v = .ok x := by
  have := encodeLoop_all_viable [] h
  simpa [encode] using this

/-- ASCII lowercasing preserves membership in SCHEME. -/
theorem lowerChar_inSCHEME {c : Char} (h : inSCHEME c = true) :
    inSCHEME (lowerChar c) = true := by
  rw [lowerChar]
  by_cases hc : ('A' ≤ c && c ≤ 'Z') = true
  · rw [if_pos hc]
    have hlo := char_le_iff.mp (of_decide_eq_true (Bool.and_elim_left hc))
    have hhi := char_le_iff.mp (of_decide_eq_true (Bool.and_elim_right hc))
    have hA : 'A'.toNat = 65 := rfl
    have hZ : 'Z'.toNat = 90 := rfl
    have ht : (Char.ofNat (c.toNat + 32)).toNat = c.toNat + 32 :=
      toNat_ofNat_valid (by omega)
    have h1 : 'a'.toNat ≤ (Char.ofNat (c.toNat + 32)).toNat := by
      rw [ht]
      have ha : 'a'.toNat = 97 := rfl
      omega
    have h2 : (Char.ofNat (c.toNat + 32)).toNat ≤ 'z'.toNat := by
      rw [ht]
      have hz : 'z'.toNat = 122 := rfl
      omega
    have halpha : inALPHA (Char.ofNat (c.toNat + 32)) = true := by
      rw [inALPHA, decide_eq_true (char_le_iff.mpr h1),
        decide_eq_true (char_le_iff.mpr h2)]
      rfl
    rw [inSCHEME, halpha]
    rfl
  · rw [if_neg hc]
    exact h

/-- One unfolding of the digit-printing loop. -/
theorem natToStringGo_eq (fuel n : Nat) (acc : List Char) :
    natToStringGo (fuel + 1) n acc =
      if n < 10 then Char.ofNat ('0'.toNat + n % 10) :: acc
      else natToStringGo fuel (n / 10) (Char.ofNat ('0'.toNat + n % 10) :: acc) := by
  rw [natToStringGo]

theorem inDIGIT_bounds {c : Char} (h : inDIGIT c = true) :
    48 ≤ c.toNat ∧ c.toNat ≤ 57 := by
  rw [inDIGIT] at h
  have hlo := char_le_iff.mp (of_decide_eq_true (Bool.and_elim_left h))
  have hhi := char_le_iff.mp (of_decide_eq_true (Bool.and_elim_right h))
  have h0 : '0'.toNat = 48 := rfl
  have h9 : '9'.toNat = 57 := rfl
  omega

/-- Printing the value of a digit gives the digit back. -/
theorem digit_char_id {d : Char} (h : inDIGIT d = true) :
    Char.ofNat ('0'.toNat + (d.toNat - '0'.toNat) % 10) = d := by
  obtain ⟨hlo, hhi⟩ := inDIGIT_bounds h
  have h0 : '0'.toNat = 48 := rfl
  apply char_eq_of_toNat
  rw [toNat_ofNat_valid (by omega)]
  omega

theorem digitsValFrom_append (d : Char) :
    ∀ (q : List Char) (acc : Nat),
      digitsValFrom acc (q ++ [d]) =
        10 * digitsValFrom acc q + (d.toNat - '0'.toNat) := by
  intro q
  induction q with
  | nil =>
    intro acc
    show acc * 10 + (d.toNat - '0'.toNat) = 10 * acc + (d.toNat - '0'.toNat)
    omega
  | cons c rest ih =>
    intro acc
    show digitsValFrom (acc * 10 + (c.toNat - '0'.toNat)) (rest ++ [d]) = _
    rw [ih]
    rfl

theorem digitsVal_pos {c : Char} {rest : List Char}
    (hd : inDIGIT c = true) (hne : ¬ (c = '0')) :
    1 ≤ digitsVal (c :: rest) := by
  obtain ⟨hlo, hhi⟩ := inDIGIT_bounds hd
  have h48 : ¬ (c.toNat = 48) := fun hh => hne (char_eq_of_toNat (by rw [hh]; rfl))
  calc 1 ≤ 0 * 10 + (c.toNat - '0'.toNat) := by
        have h0 : '0'.toNat = 48 := rfl
        omega
  _ ≤ digitsValFrom (0 * 10 + (c.toNat - '0'.toNat)) rest := digitsValFrom_ge rest _

/-- `u16::to_string` is a left inverse of digit-string evaluation on
canonical digit strings. -/
theorem natToStringGo_digits :
    ∀ (p : List Char), p ≠ [] → (∀ c ∈ p, inDIGIT c = true) →
      (¬ (p.head? = some '0') ∨ p = ['0']) →
      ∀ (fuel : Nat) (acc : List Char), digitsVal p < fuel →
        natToStringGo fuel (digitsVal p) acc = p ++ acc := by
  intro p
  induction p using List.reverseRecOn with
  | nil => intro hne _ _ _ _ _; exact absurd rfl hne
  | append_singleton q d ih =>
    intro _ hall hlead fuel acc hfuel
    have hd : inDIGIT d = true := hall d (by simp)
    obtain ⟨hdlo, hdhi⟩ := inDIGIT_bounds hd
    have h0 : '0'.toNat = 48 := rfl
    have hv : digitsVal (q ++ [d]) =
        10 * digitsVal q + (d.toNat - '0'.toNat) := digitsValFrom_append d q 0
    cases fuel with
    | zero => omega
    | succ f =>
      cases q with
      | nil =>
        have hv0 : digitsVal ([] ++ [d]) = d.toNat - '0'.toNat := by
          rw [hv]
          show 10 * 0 + (d.toNat - '0'.toNat) = _
          omega
        rw [hv0, natToStringGo_eq, if_pos (by omega), digit_char_id hd]
        rfl
      | cons c rest =>
        have hc0 : ¬ (c = '0') := by
          intro hh
          rcases hlead with hl | hl
          · exact hl (by rw [hh]; rfl)
          · have hlen := congrArg List.length hl
            simp [List.length_append] at hlen
        have hvq : 1 ≤ digitsVal (c :: rest) := digitsVal_pos (hall c (by simp)) hc0
        rw [natToStringGo_eq, hv]
        have hge : ¬ (10 * digitsVal (c :: rest) + (d.toNat - '0'.toNat) < 10) := by
          omega
        rw [if_neg hge]
        have hdiv : (10 * digitsVal (c :: rest) + (d.toNat - '0'.toNat)) / 10 =
            digitsVal (c :: rest) := by omega
        have hmod : (10 * digitsVal (c :: rest) + (d.toNat - '0'.toNat)) % 10 =
            (d.toNat - '0'.toNat) % 10 := by omega
        have hflt : digitsVal (c :: rest) < f := by omega
        rw [hdiv, hmod, digit_char_id hd,
          ih (by simp) (fun x hx => hall x (List.mem_append_left [d] hx))
            (Or.inl (fun hh => hc0 (Option.some.inj hh))) f (d :: acc) hflt,
          List.append_assoc]
        rfl

/-- A canonical port string is reproduced by `u16::to_string` after
parsing. -/
theorem port_roundtrip {p : List Char} {n : Nat}
    (hc : portCanonical p = true) (h : parsePort p = .ok n) :
    natToString n = p := by
  simp only [portCanonical, Bool.and_eq_true, Bool.not_eq_true', beq_iff_eq,
    Bool.or_eq_true, List.all_eq_true, beq_eq_false_iff_ne, ne_eq,
    List.isEmpty_eq_false] at hc
  obtain ⟨⟨hne, hall⟩, hlead⟩ := hc
  rw [parsePort] at h
  rcases hu : parseU16? p with _ | m
  · rw [hu] at h
    cases h
  · rw [hu] at h
    have hnm : m = n := Except.ok.inj h
    subst hnm
    cases p with
    | nil => exact absurd rfl hne
    | cons c cs =>
      have hcd := hall c (List.mem_cons_self c cs)
      have hplus : ¬ (c = '+') := by
        intro hh
        rw [hh] at hcd
        cases hcd
      have hminus : ¬ (c = '-') := by
        intro hh
        rw [hh] at hcd
        cases hcd
      rw [parseU16?.eq_5 (c :: cs) (by simp)
        (by intro rest hr; injection hr with h1 _; exact hplus h1)
        (by intro rest hr; injection hr with h1 _; exact hminus h1)] at hu
      obtain ⟨_, hval, _⟩ := (parseU16Loop_char (by omega)).mp hu
      rw [natToString, hval]
      show natToStringGo (digitsVal (c :: cs) + 1) (digitsVal (c :: cs)) [] = c :: cs
      rw [natToStringGo_digits (c :: cs) hne hall (Or.symm hlead)
        (digitsVal (c :: cs) + 1) ([] : List Char) (by omega), List.append_nil]


/-! ## Inversion of the component validators (C1) -/

theorem ebind_ok {α β : Type} (a : α) (f : α → Except Error β) :
    Except.bind (.ok a) f = f a := rfl

theorem parseUserinfo_ok {x w : List Char} (h : parseUserinfo x = .ok w) :
    decode x inUSER_INFO = .ok w := by
  rw [parseUserinfo] at h
  split at h
  · cases h
  · cases h
  · next d hd =>
    cases h
    exact hd

theorem parseQuery_ok {x w : List Char} (h : parseQuery x = .ok w) :
    decode x inQUERY = .ok w := by
  rw [parseQuery] at h
  split at h
  · cases h
  · cases h
  · next d hd =>
    cases h
    exact hd

theorem parseFragment_ok {x w : List Char} (h : parseFragment x = .ok w) :
    decode x inFRAGMENT = .ok w := by
  rw [parseFragment] at h
  split at h
  · cases h
  · cases h
  · next d hd =>
    cases h
    exact hd

theorem parsePath_ok {x w : List Char} (h : parsePath x = .ok w) :
    decode x inPATH = .ok w := by
  rw [parsePath.eq_def] at h
  split at h
  · cases h
  · split at h
    · cases h
    · cases h
    · next d hd =>
      cases h
      exact hd

theorem parseScheme_ok {x w : List Char} (h : parseScheme x = .ok w) :
    ∃ d, decode x inSCHEME = .ok d ∧ w = d.map lowerChar := by
  rw [parseScheme] at h
  split at h
  · cases h
  · split at h
    · cases h
    · split at h
      · cases h
      · split at h
        · cases h
        · cases h
        · next d hd =>
          cases h
          exact ⟨d, hd, rfl⟩

/-- On percent-free input an accepted host is returned verbatim, and it
can be re-emitted: either it is a bracket literal (which stringify copies
verbatim) or it re-encodes to itself. -/
theorem parseHost_id {x v : List Char} (hpct : '%' ∉ x)
    (hp : parseHost x = .ok v) :
    v = x ∧ (v.head? = some '[' ∨
      (¬ v.head? = some '[' ∧ encode v inREG_NAME = .ok v)) := by
  by_cases hb : x.head? = some '['
  · have hv := parseHost_bracket hb hp
    exact ⟨hv, Or.inl (by rw [hv]; exact hb)⟩
  · have hd := parseHost_nonbracket hb hp
    obtain ⟨hv, hall⟩ := decode_id hpct hd
    subst hv
    exact ⟨rfl, Or.inr ⟨hb, encode_id hall⟩⟩

/-- The host branch of `Authority::stringify` emits an accepted host
verbatim. -/
theorem host_emit {v : List Char} (out1 : List Char)
    (hd : v.head? = some '[' ∨
      (¬ v.head? = some '[' ∧ encode v inREG_NAME = .ok v)) :
    (if v.head? = some '[' then (.ok (out1 ++ v) : Except Error (List Char))
     else Except.bind (encode v inREG_NAME) fun e => .ok (out1 ++ e)) =
      .ok (out1 ++ v) := by
  rcases hd with hb | ⟨hb, he⟩
  · rw [if_pos hb]
  · rw [if_neg hb, he]
    rfl

/-- Characterization of a successful host:port split on a
round-trip-safe string. -/
theorem splitHost_c1 {r : List Char} {oh op : Option (List Char)}
    (hs : hostPortSafe r = true) (h : splitHost r = .ok (oh, op)) :
    (oh = some r ∧ op = none) ∨
    (∃ p, op = some p ∧ portCanonical p = true ∧
      ((oh = none ∧ r = ':' :: p) ∨
       (∃ hst, oh = some hst ∧ r = hst ++ ':' :: p))) := by
  rw [splitHost.eq_def] at h
  rw [hostPortSafe.eq_def] at hs
  split at h
  · cases h
  · next delim hdelim =>
    rw [hdelim] at hs
    dsimp only at hs
    split at h
    · next hcolon =>
      injection h with h1
      injection h1 with ha hb
      exact Or.inl ⟨ha.symm, hb.symm⟩
    · next colon hcolon =>
      rw [hcolon] at hs
      dsimp only at hs
      have hget : r.get? (delim + colon) = some ':' := by
        have hg := findChar_get hcolon
        rw [List.get?_drop] at hg
        exact hg
      have hre := take_get_drop hget
      split at h
      · next htake hdrop =>
        rw [hdrop] at hs
        exact absurd hs (by decide)
      · next htake hdrop =>
        injection h with h1
        injection h1 with ha hb
        rw [htake] at hre
        simp only [List.nil_append] at hre
        exact Or.inr ⟨_, hb.symm, hs, Or.inl ⟨ha.symm, hre.symm⟩⟩
      · rename_i hdrop hneg1 hneg2
        rw [hdrop] at hs
        exact absurd hs (by decide)
      · injection h with h1
        injection h1 with ha hb
        exact Or.inr ⟨_, hb.symm, hs, Or.inr ⟨_, ha.symm, hre.symm⟩⟩


/-! ## Authority round trip (C1) -/

/-- Computation of `Authority::stringify` from per-field emission facts. -/
theorem authorityStringify_eq {pu ph : Option (List Char)} {pp : Option Nat}
    {pre mid post : List Char}
    (hu : (pu = none ∧ pre = []) ∨
          (∃ w, pu = some w ∧ encode w inUSER_INFO = .ok w ∧ pre = w ++ ['@']))
    (hh : (ph = none ∧ mid = []) ∨
          (∃ v, ph = some v ∧ mid = v ∧
            (v.head? = some '[' ∨
             (¬ v.head? = some '[' ∧ encode v inREG_NAME = .ok v))))
    (hp : (pp = none ∧ post = []) ∨
          (∃ m, pp = some m ∧ post = ':' :: natToString m))
    (hne : ¬ (pp.isNone && ph.isNone && pu.isNone) = true) :
    authorityStringify ⟨pu, ph, pp⟩ = .ok (some (pre ++ (mid ++ post))) := by
  rcases hu with ⟨hu0, hpre⟩ | ⟨w, hu0, henc, hpre⟩ <;>
    rcases hh with ⟨hh0, hmid⟩ | ⟨v, hh0, hmid, hd⟩ <;>
      rcases hp with ⟨hp0, hpost⟩ | ⟨m, hp0, hpost⟩ <;>
        subst hu0 <;> subst hh0 <;> subst hp0 <;> subst hpre <;> subst hmid <;>
          subst hpost
  · exact absurd rfl hne
  · rw [authorityStringify]
    dsimp only
    rw [if_neg hne]
    dsimp only [ebind_ok]
    simp
  · rw [authorityStringify]
    dsimp only
    rw [if_neg hne]
    dsimp only [ebind_ok]
    rw [host_emit _ hd]
    dsimp only [ebind_ok]
    simp
  · rw [authorityStringify]
    dsimp only
    rw [if_neg hne]
    dsimp only [ebind_ok]
    rw [host_emit _ hd]
    dsimp only [ebind_ok]
    simp
  · rw [authorityStringify]
    dsimp only
    rw [if_neg hne]
    rw [henc]
    dsimp only [ebind_ok]
    simp
  · rw [authorityStringify]
    dsimp only
    rw [if_neg hne]
    rw [henc]
    dsimp only [ebind_ok]
    simp
  · rw [authorityStringify]
    dsimp only
    rw [if_neg hne]
    rw [henc]
    dsimp only [ebind_ok]
    rw [host_emit _ hd]
    dsimp only [ebind_ok]
    simp
  · rw [authorityStringify]
    dsimp only
    rw [if_neg hne]
    rw [henc]
    dsimp only [ebind_ok]
    rw [host_emit _ hd]
    dsimp only [ebind_ok]
    simp [List.append_assoc]

/-- On a percent-free, round-trip-safe, nonempty authority string,
`Authority::parse` yields `Some` authority, and `Authority::stringify`
reproduces the string verbatim. -/
theorem authority_roundtrip {a : List Char} {res : Option Authority}
    (hpct : '%' ∉ a) (hsafe : authStringSafe a = true) (hne : a ≠ [])
    (h : authorityParse a = .ok res) :
    ∃ auth, res = some auth ∧ authorityStringify auth = .ok (some a) := by
  rw [authorityParse, if_neg hne] at h
  rw [authStringSafe.eq_def] at hsafe
  rcases hso : splitOnce '@' a with _ | ⟨useri, restl⟩
  · rw [hso] at hsafe
    dsimp only at hsafe
    have hsu : splitUserinfo a = (none, some a) := by rw [splitUserinfo, hso]
    rw [hsu] at h
    dsimp only at h
    obtain ⟨hostPort, hsh, h⟩ := ebind_ok_iff.mp h
    rcases hostPort with ⟨oh, op⟩
    obtain ⟨pu, hpu, h⟩ := ebind_ok_iff.mp h
    have hpu0 : pu = none := (Except.ok.inj hpu).symm
    subst hpu0
    obtain ⟨ph, hph, h⟩ := ebind_ok_iff.mp h
    obtain ⟨pp, hpp, h⟩ := ebind_ok_iff.mp h
    rcases splitHost_c1 hsafe hsh with ⟨hoh, hop⟩ | ⟨p, hop, hpc, hcase⟩
    · subst hoh
      subst hop
      dsimp only at hph hpp
      have hpp0 : pp = none := (Except.ok.inj hpp).symm
      subst hpp0
      obtain ⟨v, hv, hphv⟩ := map_some_ok hph
      subst hphv
      dsimp only at h
      have hres := Except.ok.inj h
      obtain ⟨hvx, hd⟩ := parseHost_id hpct hv
      subst hvx
      refine ⟨⟨none, some v, none⟩, hres.symm, ?_⟩
      have hE := authorityStringify_eq (Or.inl ⟨rfl, rfl⟩)
        (Or.inr ⟨v, rfl, rfl, hd⟩) (Or.inl ⟨rfl, rfl⟩) (by simp)
      rw [hE]
      simp
    · rcases hcase with ⟨hoh, har⟩ | ⟨hst, hoh, har⟩
      · subst hoh
        subst hop
        dsimp only at hph hpp
        have hph0 : ph = none := (Except.ok.inj hph).symm
        subst hph0
        obtain ⟨m, hm, hppm⟩ := map_some_ok_nat hpp
        subst hppm
        dsimp only at h
        have hres := Except.ok.inj h
        refine ⟨⟨none, none, some m⟩, hres.symm, ?_⟩
        have hE := authorityStringify_eq (Or.inl ⟨rfl, rfl⟩)
          (Or.inl ⟨rfl, rfl⟩) (Or.inr ⟨m, rfl, rfl⟩) (by simp)
        rw [hE, port_roundtrip hpc hm, har]
        simp
      · subst hoh
        subst hop
        dsimp only at hph hpp
        obtain ⟨v, hv, hphv⟩ := map_some_ok hph
        subst hphv
        obtain ⟨m, hm, hppm⟩ := map_some_ok_nat hpp
        subst hppm
        dsimp only at h
        have hres := Except.ok.inj h
        have hpcth : '%' ∉ hst := by
          intro hmem
          exact hpct (by rw [har]; exact List.mem_append_left _ hmem)
        obtain ⟨hvx, hd⟩ := parseHost_id hpcth hv
        subst hvx
        refine ⟨⟨none, some v, some m⟩, hres.symm, ?_⟩
        have hE := authorityStringify_eq (Or.inl ⟨rfl, rfl⟩)
          (Or.inr ⟨v, rfl, rfl, hd⟩) (Or.inr ⟨m, rfl, rfl⟩) (by simp)
        rw [hE, port_roundtrip hpc hm, har]
        simp
  · rw [hso] at hsafe
    dsimp only at hsafe
    obtain ⟨hre, hnu⟩ := splitOnce_eq_some hso
    cases useri with
    | nil => simp at hsafe
    | cons u us =>
      simp only [Bool.and_eq_true] at hsafe
      have hrs := hsafe.2
      have hpctu : '%' ∉ (u :: us) := by
        intro hmem
        exact hpct (by rw [hre]; exact List.mem_append_left _ hmem)
      have hpctr : '%' ∉ restl := by
        intro hmem
        exact hpct (by
          rw [hre]
          exact List.mem_append_right _ (List.mem_cons_of_mem _ hmem))
      cases restl with
      | nil =>
        have hsu : splitUserinfo a = (some (u :: us), none) := by
          rw [splitUserinfo, hso]
        rw [hsu] at h
        dsimp only at h
        obtain ⟨hostPort, hhp, h⟩ := ebind_ok_iff.mp h
        have hhp0 : hostPort = (none, none) := (Except.ok.inj hhp).symm
        subst hhp0
        obtain ⟨pu, hpu, h⟩ := ebind_ok_iff.mp h
        obtain ⟨w, hw, hpuw⟩ := map_some_ok hpu
        subst hpuw
        obtain ⟨ph, hph, h⟩ := ebind_ok_iff.mp h
        obtain ⟨pp, hpp, h⟩ := ebind_ok_iff.mp h
        dsimp only at hph hpp
        have hph0 : ph = none := (Except.ok.inj hph).symm
        have hpp0 : pp = none := (Except.ok.inj hpp).symm
        subst hph0
        subst hpp0
        dsimp only at h
        have hres := Except.ok.inj h
        obtain ⟨hwx, hwall⟩ := decode_id hpctu (parseUserinfo_ok hw)
        subst hwx
        refine ⟨⟨some (u :: us), none, none⟩, hres.symm, ?_⟩
        have hE := authorityStringify_eq
          (Or.inr ⟨u :: us, rfl, encode_id hwall, rfl⟩)
          (Or.inl ⟨rfl, rfl⟩) (Or.inl ⟨rfl, rfl⟩) (by simp)
        rw [hE, hre]
        simp
      | cons r1 rs =>
        have hhps : hostPortSafe (r1 :: rs) = true := by
          simpa using hrs
        have hsu : splitUserinfo a = (some (u :: us), some (r1 :: rs)) := by
          rw [splitUserinfo, hso]
        rw [hsu] at h
        dsimp only at h
        obtain ⟨hostPort, hsh, h⟩ := ebind_ok_iff.mp h
        rcases hostPort with ⟨oh, op⟩
        obtain ⟨pu, hpu, h⟩ := ebind_ok_iff.mp h
        obtain ⟨w, hw, hpuw⟩ := map_some_ok hpu
        subst hpuw
        obtain ⟨ph, hph, h⟩ := ebind_ok_iff.mp h
        obtain ⟨pp, hpp, h⟩ := ebind_ok_iff.mp h
        obtain ⟨hwx, hwall⟩ := decode_id hpctu (parseUserinfo_ok hw)
        subst hwx
        rcases splitHost_c1 hhps hsh with ⟨hoh, hop⟩ | ⟨p, hop, hpc, hcase⟩
        · subst hoh
          subst hop
          dsimp only at hph hpp
          have hpp0 : pp = none := (Except.ok.inj hpp).symm
          subst hpp0
          obtain ⟨v, hv, hphv⟩ := map_some_ok hph
          subst hphv
          dsimp only at h
          have hres := Except.ok.inj h
          obtain ⟨hvx, hd⟩ := parseHost_id hpctr hv
          subst hvx
          refine ⟨⟨some (u :: us), some (r1 :: rs), none⟩, hres.symm, ?_⟩
          have hE := authorityStringify_eq
            (Or.inr ⟨u :: us, rfl, encode_id hwall, rfl⟩)
            (Or.inr ⟨r1 :: rs, rfl, rfl, hd⟩)
            (Or.inl ⟨rfl, rfl⟩) (by simp)
          rw [hE, hre]
          simp
        · rcases hcase with ⟨hoh, har⟩ | ⟨hst, hoh, har⟩
          · subst hoh
            subst hop
            dsimp only at hph hpp
            have hph0 : ph = none := (Except.ok.inj hph).symm
            subst hph0
            obtain ⟨m, hm, hppm⟩ := map_some_ok_nat hpp
            subst hppm
            dsimp only at h
            have hres := Except.ok.inj h
            refine ⟨⟨some (u :: us), none, some m⟩, hres.symm, ?_⟩
            have hE := authorityStringify_eq
              (Or.inr ⟨u :: us, rfl, encode_id hwall, rfl⟩)
              (Or.inl ⟨rfl, rfl⟩) (Or.inr ⟨m, rfl, rfl⟩) (by simp)
            rw [hE, port_roundtrip hpc hm, hre, har]
            simp
          · subst hoh
            subst hop
            dsimp only at hph hpp
            obtain ⟨v, hv, hphv⟩ := map_some_ok hph
            subst hphv
            obtain ⟨m, hm, hppm⟩ := map_some_ok_nat hpp
            subst hppm
            dsimp only at h
            have hres := Except.ok.inj h
            have hpcth : '%' ∉ hst := by
              intro hmem
              exact hpctr (by rw [har]; exact List.mem_append_left _ hmem)
            obtain ⟨hvx, hd⟩ := parseHost_id hpcth hv
            subst hvx
            refine ⟨⟨some (u :: us), some v, some m⟩, hres.symm, ?_⟩
            have hE := authorityStringify_eq
              (Or.inr ⟨u :: us, rfl, encode_id hwall, rfl⟩)
              (Or.inr ⟨v, rfl, rfl, hd⟩) (Or.inr ⟨m, rfl, rfl⟩) (by simp)
            rw [hE, port_roundtrip hpc hm, hre, har]
            simp


/-! ## Uri round trip (C1) -/

/-- The authority part produced by `split_authority_and_path` is nonempty. -/
theorem splitAuthorityAndPath_some_ne {r a p : List Char}
    (h : splitAuthorityAndPath r = .ok (some a, p)) : a ≠ [] := by
  rw [splitAuthorityAndPath.eq_def] at h
  split at h
  · next stripped =>
    split at h
    · cases h
    · next hstr =>
      dsimp only at h
      split at h
      · cases h
      · next hend0 =>
        split at h
        · simp only [Except.ok.injEq, Prod.mk.injEq, Option.some.injEq] at h
          rw [← h.1]
          exact hstr
        · simp only [Except.ok.injEq, Prod.mk.injEq, Option.some.injEq] at h
          rw [← h.1]
          intro htake
          have hlen := congrArg List.length htake
          rw [List.length_take, List.length_nil] at hlen
          have hsl : 0 < stripped.length := List.length_pos.mpr hstr
          omega
  · simp only [Except.ok.injEq, Prod.mk.injEq] at h
    cases h.1

/-- Computation of `Uri::stringify` from per-field emission facts. -/
theorem uriStringify_eq {ps : Option (List Char)} {pa : Option Authority}
    {ppth : List Char} {pq pf : Option (List Char)}
    {preS preA preQ preF : List Char}
    (hs : (ps = none ∧ preS = []) ∨
          (∃ w, ps = some w ∧ encode w inSCHEME = .ok w ∧ preS = w ++ [':']))
    (ha : (pa = none ∧ preA = []) ∨
          (∃ au astr, pa = some au ∧ authorityStringify au = .ok (some astr) ∧
            preA = '/' :: '/' :: astr))
    (hpth : encode ppth inPATH = .ok ppth)
    (hq : (pq = none ∧ preQ = []) ∨
          (∃ w, pq = some w ∧ encode w inQUERY = .ok w ∧ preQ = '?' :: w))
    (hf : (pf = none ∧ preF = []) ∨
          (∃ w, pf = some w ∧ encode w inFRAGMENT = .ok w ∧ preF = '#' :: w)) :
    uriStringify ⟨ps, pa, ppth, pq, pf⟩ =
      .ok (preS ++ (preA ++ (ppth ++ (preQ ++ preF)))) := by
  rcases hs with ⟨hs0, hpreS⟩ | ⟨w, hs0, hsenc, hpreS⟩ <;>
    rcases ha with ⟨ha0, hpreA⟩ | ⟨au, astr, ha0, hast, hpreA⟩ <;>
      rcases hq with ⟨hq0, hpreQ⟩ | ⟨wq, hq0, hqenc, hpreQ⟩ <;>
        rcases hf with ⟨hf0, hpreF⟩ | ⟨wf, hf0, hfenc, hpreF⟩ <;>
          subst hs0 <;> subst hpreS <;> subst ha0 <;> subst hpreA <;>
            subst hq0 <;> subst hpreQ <;> subst hf0 <;> subst hpreF
  · rw [uriStringify]
    dsimp only
    dsimp only [ebind_ok]
    rw [hpth]
    dsimp only [ebind_ok]
    simp [List.append_assoc]
  · rw [uriStringify]
    dsimp only
    dsimp only [ebind_ok]
    rw [hpth]
    dsimp only [ebind_ok]
    rw [hfenc]
    dsimp only [ebind_ok]
    simp [List.append_assoc]
  · rw [uriStringify]
    dsimp only
    dsimp only [ebind_ok]
    rw [hpth]
    dsimp only [ebind_ok]
    rw [hqenc]
    dsimp only [ebind_ok]
    simp [List.append_assoc]
  · rw [uriStringify]
    dsimp only
    dsimp only [ebind_ok]
    rw [hpth]
    dsimp only [ebind_ok]
    rw [hqenc]
    dsimp only [ebind_ok]
    rw [hfenc]
    dsimp only [ebind_ok]
    simp [List.append_assoc]
  · rw [uriStringify]
    dsimp only
    dsimp only [ebind_ok]
    rw [hast]
    dsimp only [ebind_ok]
    rw [hpth]
    dsimp only [ebind_ok]
    simp [List.append_assoc]
  · rw [uriStringify]
    dsimp only
    dsimp only [ebind_ok]
    rw [hast]
    dsimp only [ebind_ok]
    rw [hpth]
    dsimp only [ebind_ok]
    rw [hfenc]
    dsimp only [ebind_ok]
    simp [List.append_assoc]
  · rw [uriStringify]
    dsimp only
    dsimp only [ebind_ok]
    rw [hast]
    dsimp only [ebind_ok]
    rw [hpth]
    dsimp only [ebind_ok]
    rw [hqenc]
    dsimp only [ebind_ok]
    simp [List.append_assoc]
  · rw [uriStringify]
    dsimp only
    dsimp only [ebind_ok]
    rw [hast]
    dsimp only [ebind_ok]
    rw [hpth]
    dsimp only [ebind_ok]
    rw [hqenc]
    dsimp only [ebind_ok]
    rw [hfenc]
    dsimp only [ebind_ok]
    simp [List.append_assoc]
  · rw [uriStringify]
    dsimp only
    rw [hsenc]
    dsimp only [ebind_ok]
    rw [hpth]
    dsimp only [ebind_ok]
    simp [List.append_assoc]
  · rw [uriStringify]
    dsimp only
    rw [hsenc]
    dsimp only [ebind_ok]
    rw [hpth]
    dsimp only [ebind_ok]
    rw [hfenc]
    dsimp only [ebind_ok]
    simp [List.append_assoc]
  · rw [uriStringify]
    dsimp only
    rw [hsenc]
    dsimp only [ebind_ok]
    rw [hpth]
    dsimp only [ebind_ok]
    rw [hqenc]
    dsimp only [ebind_ok]
    simp [List.append_assoc]
  · rw [uriStringify]
    dsimp only
    rw [hsenc]
    dsimp only [ebind_ok]
    rw [hpth]
    dsimp only [ebind_ok]
    rw [hqenc]
    dsimp only [ebind_ok]
    rw [hfenc]
    dsimp only [ebind_ok]
    simp [List.append_assoc]
  · rw [uriStringify]
    dsimp only
    rw [hsenc]
    dsimp only [ebind_ok]
    rw [hast]
    dsimp only [ebind_ok]
    rw [hpth]
    dsimp only [ebind_ok]
    simp [List.append_assoc]
  · rw [uriStringify]
    dsimp only
    rw [hsenc]
    dsimp only [ebind_ok]
    rw [hast]
    dsimp only [ebind_ok]
    rw [hpth]
    dsimp only [ebind_ok]
    rw [hfenc]
    dsimp only [ebind_ok]
    simp [List.append_assoc]
  · rw [uriStringify]
    dsimp only
    rw [hsenc]
    dsimp only [ebind_ok]
    rw [hast]
    dsimp only [ebind_ok]
    rw [hpth]
    dsimp only [ebind_ok]
    rw [hqenc]
    dsimp only [ebind_ok]
    simp [List.append_assoc]
  · rw [uriStringify]
    dsimp only
    rw [hsenc]
    dsimp only [ebind_ok]
    rw [hast]
    dsimp only [ebind_ok]
    rw [hpth]
    dsimp only [ebind_ok]
    rw [hqenc]
    dsimp only [ebind_ok]
    rw [hfenc]
    dsimp only [ebind_ok]
    simp [List.append_assoc]


/-- C1 (amended): for every percent-free string accepted by `Uri::parse`
whose authority part is round-trip safe, `stringify` returns the input
with the scheme lowercased. -/
theorem claim_C1 (s : List Char) (u : Uri) (h : uriParse s = .ok u)
    (hpct : '%' ∉ s) (hsafe : roundTripSafe s = true) :
    uriStringify u = .ok (schemeLowered s) := by
  rw [uriParse] at h
  by_cases hs0 : s = []
  · rw [if_pos hs0] at h
    have hu : u = ⟨none, none, [], none, none⟩ := (Except.ok.inj h).symm
    subst hu
    subst hs0
    rfl
  · rw [if_neg hs0] at h
    obtain ⟨⟨sw1, sw2⟩, hsw0, h⟩ := ebind_ok_iff.mp h
    dsimp only at h
    rcases hsf : splitFragment sw2 with ⟨fragment, apq⟩
    rw [hsf] at h
    dsimp only at h
    rcases hsq : splitQuery apq with ⟨query, ap⟩
    rw [hsq] at h
    dsimp only at h
    obtain ⟨⟨ap1, ap2⟩, hap0, h⟩ := ebind_ok_iff.mp h
    dsimp only at h
    obtain ⟨ps, hps, h⟩ := ebind_ok_iff.mp h
    obtain ⟨pf, hpf, h⟩ := ebind_ok_iff.mp h
    obtain ⟨pq, hpq, h⟩ := ebind_ok_iff.mp h
    obtain ⟨ppth, hppth, h⟩ := ebind_ok_iff.mp h
    obtain ⟨pa, hpa, h⟩ := ebind_ok_iff.mp h
    have hu : u = ⟨ps, pa, ppth, pq, pf⟩ := (Except.ok.inj h).symm
    subst hu
    have hpct2 : '%' ∉ sw2 := by
      cases sw1 with
      | none =>
        rw [splitScheme_none hsw0]
        exact hpct
      | some sch =>
        intro hm
        exact hpct (by
          rw [splitScheme_some hsw0]
          exact List.mem_append_right _ (List.mem_cons_of_mem _ hm))
    have hpct3 : '%' ∉ apq := by
      cases fragment with
      | none =>
        rw [splitFragment_none hsf]
        exact hpct2
      | some f =>
        intro hm
        exact hpct2 (by
          rw [splitFragment_some hsf]
          exact List.mem_append_left _ hm)
    have hpct4 : '%' ∉ ap := by
      cases query with
      | none =>
        rw [splitQuery_none hsq]
        exact hpct3
      | some q =>
        intro hm
        exact hpct3 (by
          rw [splitQuery_some hsq]
          exact List.mem_append_left _ hm)
    have hSch : ∃ preS, schemeLowered s = preS ++ sw2 ∧
        ((ps = none ∧ preS = []) ∨
         (∃ w, ps = some w ∧ encode w inSCHEME = .ok w ∧ preS = w ++ [':'])) := by
      cases sw1 with
      | none =>
        have hps0 : ps = none := (Except.ok.inj hps).symm
        refine ⟨[], ?_, Or.inl ⟨hps0, rfl⟩⟩
        rw [schemeLowered.eq_def, hsw0]
        dsimp only
        rw [splitScheme_none hsw0]
        rfl
      | some sch =>
        obtain ⟨w, hw, hpsw⟩ := map_some_ok hps
        subst hpsw
        obtain ⟨d, hdec, hwd⟩ := parseScheme_ok hw
        have hpcts : '%' ∉ sch := by
          intro hm
          exact hpct (by
            rw [splitScheme_some hsw0]
            exact List.mem_append_left _ hm)
        obtain ⟨hdx, hdall⟩ := decode_id hpcts hdec
        rw [hdx] at hwd
        subst hwd
        have hwall : ∀ c ∈ sch.map lowerChar, inSCHEME c = true := by
          intro c hc
          obtain ⟨y, hy, hyc⟩ := List.mem_map.mp hc
          rw [← hyc]
          exact lowerChar_inSCHEME (hdall y hy)
        refine ⟨sch.map lowerChar ++ [':'], ?_,
          Or.inr ⟨sch.map lowerChar, rfl, encode_id hwall, rfl⟩⟩
        rw [schemeLowered.eq_def, hsw0]
        dsimp only
        rw [List.append_assoc]
        rfl
    have hFrag : ∃ preF, sw2 = apq ++ preF ∧
        ((pf = none ∧ preF = []) ∨
         (∃ w, pf = some w ∧ encode w inFRAGMENT = .ok w ∧ preF = '#' :: w)) := by
      cases fragment with
      | none =>
        have hpf0 : pf = none := (Except.ok.inj hpf).symm
        refine ⟨[], ?_, Or.inl ⟨hpf0, rfl⟩⟩
        rw [splitFragment_none hsf, List.append_nil]
      | some f =>
        obtain ⟨w, hw, hpfw⟩ := map_some_ok hpf
        subst hpfw
        have hpctf : '%' ∉ f := by
          intro hm
          exact hpct2 (by
            rw [splitFragment_some hsf]
            exact List.mem_append_right _ (List.mem_cons_of_mem _ hm))
        obtain ⟨hwx, hwall⟩ := decode_id hpctf (parseFragment_ok hw)
        subst hwx
        exact ⟨'#' :: w, splitFragment_some hsf,
          Or.inr ⟨w, rfl, encode_id hwall, rfl⟩⟩
    have hQue : ∃ preQ, apq = ap ++ preQ ∧
        ((pq = none ∧ preQ = []) ∨
         (∃ w, pq = some w ∧ encode w inQUERY = .ok w ∧ preQ = '?' :: w)) := by
      cases query with
      | none =>
        have hpq0 : pq = none := (Except.ok.inj hpq).symm
        refine ⟨[], ?_, Or.inl ⟨hpq0, rfl⟩⟩
        rw [splitQuery_none hsq, List.append_nil]
      | some q =>
        obtain ⟨w, hw, hpqw⟩ := map_some_ok hpq
        subst hpqw
        have hpctq : '%' ∉ q := by
          intro hm
          exact hpct3 (by
            rw [splitQuery_some hsq]
            exact List.mem_append_right _ (List.mem_cons_of_mem _ hm))
        obtain ⟨hwx, hwall⟩ := decode_id hpctq (parseQuery_ok hw)
        subst hwx
        exact ⟨'?' :: w, splitQuery_some hsq,
          Or.inr ⟨w, rfl, encode_id hwall, rfl⟩⟩
    have hPath : ppth = ap2 ∧ encode ppth inPATH = .ok ppth := by
      have hd := parsePath_ok hppth
      have hpct5 : '%' ∉ ap2 := by
        cases ap1 with
        | none =>
          rw [splitAuthorityAndPath_none hap0]
          exact hpct4
        | some a =>
          intro hm
          exact hpct4 (by
            rw [splitAuthorityAndPath_some hap0]
            exact List.mem_cons_of_mem _ (List.mem_cons_of_mem _
              (List.mem_append_right _ hm)))
      obtain ⟨hx, hall⟩ := decode_id hpct5 hd
      subst hx
      exact ⟨rfl, encode_id hall⟩
    have hAuth : ∃ preA, ap = preA ++ ap2 ∧
        ((pa = none ∧ preA = []) ∨
         (∃ au astr, pa = some au ∧ authorityStringify au = .ok (some astr) ∧
           preA = '/' :: '/' :: astr)) := by
      cases ap1 with
      | none =>
        have hpa0 : pa = none := (Except.ok.inj hpa).symm
        refine ⟨[], ?_, Or.inl ⟨hpa0, rfl⟩⟩
        rw [splitAuthorityAndPath_none hap0]
        rfl
      | some a =>
        have hsafeA : authStringSafe a = true := by
          rw [roundTripSafe.eq_def, hsw0] at hsafe
          dsimp only at hsafe
          rw [hsf] at hsafe
          dsimp only at hsafe
          rw [hsq] at hsafe
          dsimp only at hsafe
          rw [hap0] at hsafe
          dsimp only at hsafe
          exact hsafe
        have hpctA : '%' ∉ a := by
          intro hm
          exact hpct4 (by
            rw [splitAuthorityAndPath_some hap0]
            exact List.mem_cons_of_mem _ (List.mem_cons_of_mem _
              (List.mem_append_left _ hm)))
        obtain ⟨auth, hpaA, hstr⟩ := authority_roundtrip hpctA hsafeA
          (splitAuthorityAndPath_some_ne hap0) hpa
        refine ⟨'/' :: '/' :: a, ?_, Or.inr ⟨auth, a, hpaA, hstr, rfl⟩⟩
        rw [splitAuthorityAndPath_some hap0]
        rfl
    obtain ⟨preS, hSL, hsd⟩ := hSch
    obtain ⟨preF, hF, hfd⟩ := hFrag
    obtain ⟨preQ, hQ, hqd⟩ := hQue
    obtain ⟨hpthx, hpthe⟩ := hPath
    obtain ⟨preA, hA, had⟩ := hAuth
    rw [uriStringify_eq hsd had hpthe hqd hfd, hSL, hF, hQ, hA, hpthx]
    simp [List.append_assoc]


/-- Counterexample to C1 as stated: a percent-escape of an in-class
character is not reproduced (`"%41"` stringifies to `"A"`), and several
escape-free accepted inputs are not reproduced either — a trailing `:`
and an empty userinfo's `@` are dropped, and the accepted port spellings
`+80` and `080` are rewritten to `80`. -/
theorem claim_C1_counterexample :
    Except.bind (uriParse "%41".data) uriStringify = .ok "A".data ∧
    Except.bind (uriParse "//example.com:".data) uriStringify =
      .ok "//example.com".data ∧
    Except.bind (uriParse "//@example.com".data) uriStringify =
      .ok "//example.com".data ∧
    Except.bind (uriParse "//example.com:+80".data) uriStringify =
      .ok "//example.com:80".data ∧
    Except.bind (uriParse "//example.com:080".data) uriStringify =
      .ok "//example.com:80".data :=
  ⟨by decide, by decide, by decide, by decide, by decide⟩

/-- Witness for C1 at `"HTTP://u@example.com:80/p?q#f"`: the parse is
accepted, the input is percent-free and round-trip safe, and stringify
returns the input with the scheme lowercased. -/
theorem claim_C1_witness :
    uriStringify ⟨some "http".data,
      some ⟨some "u".data, some "example.com".data, some 80⟩,
      "/p".data, some "q".data, some "f".data⟩ =
      .ok (schemeLowered "HTTP://u@example.com:80/p?q#f".data) :=
  claim_C1 "HTTP://u@example.com:80/p?q#f".data _ (by decide) (by decide)
    (by decide)

end UriParser
